import Mathlib

/-!
# Mimiker virtual memory map (sys/vm_map.c)

A verification development over a shallow embedding of `sys/vm_map.c`.

Conventions of the embedding

* Pointers to map entries are natural numbers (the address of the entry);
  a nullable pointer is an `Option`.  `none` is `NULL`.
* The memory of the entries is kept field by field (one function per field of
  `vm_map_entry_t`), so that an assignment `e->f = v` is a pointwise update of
  the function for field `f`.
* The tail queue `map->list` is kept at the level of its pointers
  (`tqh_first`, `tqh_last`, `tqe_next`, `tqe_prev`, gathered in `tailq`),
  because the code can link an entry next to one that was unlinked before.
* The splay tree `map->tree` is kept as a binary tree of entry pointers; the
  keys are read from the entries through `vm_map_entry_cmp`.
* A function that may stop the kernel (`assert`, `panic`, a store through a
  null pointer) returns an `Option` or an explicit outcome.
* Loops over linked structures take a fuel argument; the theorems show that
  enough fuel yields the result.
-/

namespace Mimiker

/-! ## Machine parameters -/

/-- Modelled from the spec: `PAGESIZE` is declared in a header that is not part
of the sources at hand; the spec speaks of page-size alignment and uses 4 KiB
pages in its scenarios (`0x1000`, `0x2000`, ...). -/
def PAGESIZE : Nat := 4096

/-- Modelled from the spec: `vm_addr_t` is declared in a header that is not
part of the sources at hand.  It is an unsigned machine word; `vm_map_dump`
prints it with eight hexadecimal digits (`%08lx`), so it is taken to be 32 bits
wide.  `VM_ADDR_MOD` is the number of its values. -/
def VM_ADDR_MOD : Nat := 2 ^ 32

/-- Modelled from the spec: `is_aligned(addr, size)` is a macro of a header
that is not part of the sources at hand; it holds when `addr` is a multiple of
`size`. -/
def is_aligned (addr size : Nat) : Bool := addr % size == 0

/-- Conversion of an unsigned 32 bit value to `int` (two's complement), as done
by `return a->start - b->start` in a function returning `int`. -/
def int_of_vm_addr (d : Nat) : Int :=
  if d % VM_ADDR_MOD < 2 ^ 31 then (d % VM_ADDR_MOD : Nat) else ((d % VM_ADDR_MOD : Nat) : Int) - 2 ^ 32

/-! ## Data model -/

/-- The value of a `tqe_prev` or `tqh_last` field: the address of a cell that
holds a pointer to an entry.  Such a cell is either `tqh_first` of the head of
the list or the `tqe_next` field of an entry. -/
inductive tqe_ref where
  | null : tqe_ref
  | tqh_first : tqe_ref
  | tqe_next (e : Nat) : tqe_ref
  deriving DecidableEq, Repr

/-- The splay tree `map->tree`: each node is an entry (its address) with the
subtrees of its `spe_left` and `spe_right` links. -/
inductive vm_map_tree where
  | leaf : vm_map_tree
  | node (l : vm_map_tree) (e : Nat) (r : vm_map_tree) : vm_map_tree
  deriving DecidableEq, Repr

/-- What `kfree(mpool, ...)` was called on. -/
inductive kobj where
  | entry (e : Nat) : kobj
  | map : kobj
  deriving DecidableEq, Repr

/-- The pointers of the tail queue `map->list`: the two fields of its head and
the two link fields `map_list` of every entry. -/
structure tailq where
  /-- Field `map->list.tqh_first`. -/
  tqh_first : Option Nat
  /-- Field `map->list.tqh_last`. -/
  tqh_last : tqe_ref
  /-- Field `entry->map_list.tqe_next` of every entry. -/
  tqe_next : Nat → Option Nat
  /-- Field `entry->map_list.tqe_prev` of every entry. -/
  tqe_prev : Nat → tqe_ref

/-- The state the functions of `vm_map.c` work on for one map: the fields of
the `vm_map_t`, the bounds of its `pmap`, the fields of the entries allocated
from `mpool`, and the calls made to the collaborators `kmalloc`, `kfree` and
`vm_object_free`. -/
structure kstate where
  /-- Field `map->pmap->start`. -/
  pmap_start : Nat
  /-- Field `map->pmap->end`. -/
  pmap_end : Nat
  /-- Field `map->tree` (its `sph_root`). -/
  tree : vm_map_tree
  /-- Field `map->list` and the `map_list` links of the entries. -/
  list : tailq
  /-- Field `map->nentries`, an unsigned 32 bit counter. -/
  nentries : Nat
  /-- Field `entry->start` of every entry. -/
  start : Nat → Nat
  /-- Field `entry->end` of every entry. -/
  end_ : Nat → Nat
  /-- Field `entry->prot` of every entry. -/
  prot : Nat → Nat
  /-- Field `entry->object` of every entry. -/
  object : Nat → Option Nat
  /-- The next address `kmalloc` hands out; blocks are never handed out twice
  and `kfree` leaves the contents of a block in place. -/
  brk : Nat
  /-- The arguments of the calls to `vm_object_free`, oldest first. -/
  object_free_log : List (Option Nat)
  /-- The arguments of the calls to `kfree`, oldest first. -/
  kfree_log : List kobj

/-- Pointwise update of a field: `upd f e v` is `f` after `e->f = v`. -/
def upd {α : Type} (f : Nat → α) (e : Nat) (v : α) : Nat → α :=
  fun i => if i = e then v else f i

/-! ## Ordering of entries -/

/-- The comparison `vm_map_entry_cmp(a, b)` on two entries. -/
def vm_map_entry_cmp (s : kstate) (a b : Nat) : Int :=
  if s.start a < s.start b then -1
  else int_of_vm_addr (s.start a - s.start b)

/-! ## The splay tree macros (`SPLAY_GENERATE`) -/

/-- `SPLAY_ASSEMBLE`: the final root `x` with subtrees `l` and `r` receives the
left tree built by the `SPLAY_LINKRIGHT` steps (`L`, last linked first) and the
right tree built by the `SPLAY_LINKLEFT` steps (`R`, last linked first). -/
def SPLAY_ASSEMBLE (l : vm_map_tree) (x : Nat) (r : vm_map_tree)
    (L : List (vm_map_tree × Nat)) (R : List (Nat × vm_map_tree)) : vm_map_tree :=
  .node (L.foldl (fun acc p => .node p.1 p.2 acc) l) x
        (R.foldl (fun acc p => .node acc p.1 p.2) r)

/-- Modelled from the spec: the macros of `tree.h` are not part of the sources
at hand; the spec only says that the map keeps an ordered index keyed by start
address.  This is the loop of `vm_map_tree_SPLAY(head, elm)` as `SPLAY_GENERATE`
expands it (top-down splaying): `cmp x` is `vm_map_entry_cmp(elm, x)`, the first
argument is the tree under `head->sph_root`, `L` and `R` are the left and right
trees under construction.  The loop is entered with a non-empty tree only. -/
def SPLAY_loop (cmp : Nat → Int) :
    vm_map_tree → List (vm_map_tree × Nat) → List (Nat × vm_map_tree) → vm_map_tree
  | .leaf, _, _ => .leaf
  | .node l x r, L, R =>
    if cmp x = 0 then SPLAY_ASSEMBLE l x r L R
    else if cmp x < 0 then
      match l with
      | .leaf => SPLAY_ASSEMBLE .leaf x r L R
      | .node ll lx lr =>
        if cmp lx < 0 then
          -- SPLAY_ROTATE_RIGHT, then SPLAY_LINKLEFT unless the new root has no left child
          match ll with
          | .leaf => SPLAY_ASSEMBLE .leaf lx (.node lr x r) L R
          | .node a y b => SPLAY_loop cmp (.node a y b) L ((lx, .node lr x r) :: R)
        else
          SPLAY_loop cmp (.node ll lx lr) L ((x, r) :: R)
    else
      match r with
      | .leaf => SPLAY_ASSEMBLE l x .leaf L R
      | .node rl rx rr =>
        if cmp rx > 0 then
          -- SPLAY_ROTATE_LEFT, then SPLAY_LINKRIGHT unless the new root has no right child
          match rr with
          | .leaf => SPLAY_ASSEMBLE (.node l x rl) rx .leaf L R
          | .node a y b => SPLAY_loop cmp (.node a y b) ((.node l x rl, rx) :: L) R
        else
          SPLAY_loop cmp (.node rl rx rr) ((l, x) :: L) R

/-- The function `vm_map_tree_SPLAY(head, elm)`. -/
def vm_map_tree_SPLAY (s : kstate) (t : vm_map_tree) (elm : Nat) : vm_map_tree :=
  SPLAY_loop (fun x => vm_map_entry_cmp s elm x) t [] []

/-- Modelled from the spec: `SPLAY_INSERT` of `tree.h` (not part of the sources
at hand).  Returns the new tree and `NULL` when `elm` was inserted, or the
entry already in the tree that compares equal to `elm`. -/
def vm_map_tree_SPLAY_INSERT (s : kstate) (t : vm_map_tree) (elm : Nat) :
    vm_map_tree × Option Nat :=
  match t with
  | .leaf => (.node .leaf elm .leaf, none)
  | .node _ _ _ =>
    match vm_map_tree_SPLAY s t elm with
    | .leaf => (.leaf, none)
    | .node l x r =>
      if vm_map_entry_cmp s elm x < 0 then (.node l elm (.node .leaf x r), none)
      else if vm_map_entry_cmp s elm x > 0 then (.node (.node l x .leaf) elm r, none)
      else (.node l x r, some x)

/-- The subtree under the `spe_right` link of the node `elm` of the tree, if
`elm` is a node of the tree. -/
def vm_map_tree.right_of : vm_map_tree → Nat → Option vm_map_tree
  | .leaf, _ => none
  | .node l x r, elm =>
    if x = elm then some r
    else match vm_map_tree.right_of l elm with
      | some t => some t
      | none => vm_map_tree.right_of r elm

/-- Follow the `spe_left` links as far as they go. -/
def vm_map_tree.leftmost : vm_map_tree → Option Nat
  | .leaf => none
  | .node l x _ =>
    match vm_map_tree.leftmost l with
    | some y => some y
    | none => some x

/-- Modelled from the spec: `SPLAY_NEXT` of `tree.h` (not part of the sources
at hand): splay the tree at `elm`, then take the leftmost node of the right
subtree of `elm`, or `NULL` when that subtree is empty. -/
def vm_map_tree_SPLAY_NEXT (s : kstate) (t : vm_map_tree) (elm : Nat) :
    vm_map_tree × Option Nat :=
  let t1 := vm_map_tree_SPLAY s t elm
  match t1.right_of elm with
  | some r => (t1, r.leftmost)
  | none => (t1, none)

/-- The entries of a tree, in order. -/
def vm_map_tree.toList : vm_map_tree → List Nat
  | .leaf => []
  | .node l x r => l.toList ++ x :: r.toList

/-! ## The tail queue macros (`TAILQ_*`) -/

/-- Read the cell a `tqe_ref` points to (`*p`); `none` stands for a null `p`. -/
def tq_load (q : tailq) : tqe_ref → Option (Option Nat)
  | .null => none
  | .tqh_first => some q.tqh_first
  | .tqe_next e => some (q.tqe_next e)

/-- Write the cell a `tqe_ref` points to (`*p = v`); `none` stands for a store
through a null pointer. -/
def tq_store (q : tailq) (p : tqe_ref) (v : Option Nat) : Option tailq :=
  match p with
  | .null => none
  | .tqh_first => some { q with tqh_first := v }
  | .tqe_next e => some { q with tqe_next := upd q.tqe_next e v }

/-- Modelled from the spec: `TAILQ_INIT(&map->list)` of `queue.h` (not part of
the sources at hand). -/
def TAILQ_INIT (q : tailq) : tailq :=
  { q with tqh_first := none, tqh_last := .tqh_first }

/-- Modelled from the spec: `TAILQ_INSERT_TAIL(&map->list, elm, map_list)` of
`queue.h` (not part of the sources at hand). -/
def TAILQ_INSERT_TAIL (q : tailq) (elm : Nat) : Option tailq :=
  let q1 := { q with tqe_next := upd q.tqe_next elm none }
  let q2 := { q1 with tqe_prev := upd q1.tqe_prev elm q1.tqh_last }
  match tq_store q2 q2.tqh_last (some elm) with
  | none => none
  | some q3 => some { q3 with tqh_last := .tqe_next elm }

/-- Modelled from the spec: `TAILQ_INSERT_BEFORE(listelm, elm, map_list)` of
`queue.h` (not part of the sources at hand). -/
def TAILQ_INSERT_BEFORE (q : tailq) (listelm elm : Nat) : Option tailq :=
  let q1 := { q with tqe_prev := upd q.tqe_prev elm (q.tqe_prev listelm) }
  let q2 := { q1 with tqe_next := upd q1.tqe_next elm (some listelm) }
  match tq_store q2 (q2.tqe_prev listelm) (some elm) with
  | none => none
  | some q3 => some { q3 with tqe_prev := upd q3.tqe_prev listelm (.tqe_next elm) }

/-- Modelled from the spec: `TAILQ_REMOVE(&map->list, elm, map_list)` of
`queue.h` (not part of the sources at hand). -/
def TAILQ_REMOVE (q : tailq) (elm : Nat) : Option tailq :=
  let q1 :=
    match q.tqe_next elm with
    | some n => { q with tqe_prev := upd q.tqe_prev n (q.tqe_prev elm) }
    | none => { q with tqh_last := q.tqe_prev elm }
  tq_store q1 (q1.tqe_prev elm) (q1.tqe_next elm)

/-! ## The functions of `vm_map.c` on one map -/

/-- The function `vm_map_setup`. -/
def vm_map_setup (s : kstate) : kstate :=
  { s with list := TAILQ_INIT s.list, tree := .leaf }

/-- The function `vm_map_new`: a zeroed `vm_map_t`, set up, with the `pmap`
that `pmap_new()` returns; the bounds of that `pmap` are the arguments. -/
def vm_map_new (pmap_start pmap_end : Nat) : kstate :=
  vm_map_setup
    { pmap_start := pmap_start, pmap_end := pmap_end, tree := .leaf,
      list := { tqh_first := none, tqh_last := .null, tqe_next := fun _ => none,
                tqe_prev := fun _ => .null },
      nentries := 0, start := fun _ => 0, end_ := fun _ => 0, prot := fun _ => 0,
      object := fun _ => none, brk := 0, object_free_log := [], kfree_log := [] }

/-- The function `vm_map_insert_entry`; `none` stands for a store through a
null pointer inside a list macro. -/
def vm_map_insert_entry (s : kstate) (entry : Nat) : Option (kstate × Bool) :=
  match vm_map_tree_SPLAY_INSERT s s.tree entry with
  | (t1, none) =>
    match vm_map_tree_SPLAY_NEXT s t1 entry with
    | (t2, next) =>
      let linked :=
        match next with
        | some n => TAILQ_INSERT_BEFORE s.list n entry
        | none => TAILQ_INSERT_TAIL s.list entry
      match linked with
      | none => none
      | some q => some ({ s with tree := t2, list := q, nentries := (s.nentries + 1) % 2 ^ 32 }, true)
  | (t1, some _) => some ({ s with tree := t1 }, false)

/-- The loop `TAILQ_FOREACH` of `vm_map_find_entry`, started at `etr_it`.
The outer `none` means that the fuel ran out before the loop ended. -/
def vm_map_find_entry_loop (s : kstate) (vaddr : Nat) : Nat → Option Nat → Option (Option Nat)
  | _, none => some none
  | 0, some _ => none
  | fuel + 1, some e =>
    if s.start e ≤ vaddr ∧ vaddr < s.end_ e then some (some e)
    else vm_map_find_entry_loop s vaddr fuel (s.list.tqe_next e)

/-- The function `vm_map_find_entry`. -/
def vm_map_find_entry (s : kstate) (vaddr : Nat) (fuel : Nat) : Option (Option Nat) :=
  vm_map_find_entry_loop s vaddr fuel s.list.tqh_first

/-- The function `vm_map_remove_entry`; `none` stands for a store through a
null pointer inside `TAILQ_REMOVE`. -/
def vm_map_remove_entry (s : kstate) (entry : Nat) : Option kstate :=
  let s1 := { s with nentries := (s.nentries + 2 ^ 32 - 1) % 2 ^ 32 }
  let s2 := { s1 with object_free_log := s1.object_free_log ++ [s1.object entry] }
  match TAILQ_REMOVE s2.list entry with
  | none => none
  | some q => some { s2 with list := q, kfree_log := s2.kfree_log ++ [kobj.entry entry] }

/-- The function `vm_map_delete`.  `none` means that the fuel ran out before
the loop ended, or that a null pointer was dereferenced (`TAILQ_FIRST` of an
empty list handed to `vm_map_remove_entry`). -/
def vm_map_delete (s : kstate) : Nat → Option kstate
  | 0 => if s.nentries > 0 then none else some { s with kfree_log := s.kfree_log ++ [kobj.map] }
  | fuel + 1 =>
    if s.nentries > 0 then
      match s.list.tqh_first with
      | none => none
      | some e =>
        match vm_map_remove_entry s e with
        | none => none
        | some s1 => vm_map_delete s1 fuel
    else some { s with kfree_log := s.kfree_log ++ [kobj.map] }

/-- The allocation `kmalloc(mpool, sizeof(vm_map_entry_t), M_ZERO)`: a block
that was not handed out before, with all fields zero. -/
def kmalloc_entry (s : kstate) : kstate × Nat :=
  ({ s with
      start := upd s.start s.brk 0, end_ := upd s.end_ s.brk 0, prot := upd s.prot s.brk 0,
      object := upd s.object s.brk none,
      list := { s.list with tqe_next := upd s.list.tqe_next s.brk none,
                            tqe_prev := upd s.list.tqe_prev s.brk .null },
      brk := s.brk + 1 }, s.brk)

/-- The function `vm_map_add_entry`.  `none` means that the kernel stopped: an
assertion failed, or a list macro stored through a null pointer. -/
def vm_map_add_entry (s : kstate) (start end_ prot : Nat) : Option (kstate × Nat) :=
  if ¬ (start ≥ s.pmap_start) then none
  else if ¬ (end_ ≤ s.pmap_end) then none
  else if ¬ is_aligned start PAGESIZE then none
  else if ¬ is_aligned end_ PAGESIZE then none
  else
    match kmalloc_entry s with
    | (s1, entry) =>
      let s2 := { s1 with start := upd s1.start entry start }
      let s3 := { s2 with end_ := upd s2.end_ entry end_ }
      let s4 := { s3 with prot := upd s3.prot entry prot }
      match vm_map_insert_entry s4 entry with
      | none => none
      | some (s5, _) => some (s5, entry)

/-- A sequence of `vm_map_add_entry` calls, one per `(start, end, prot)`, with
the entries they return, in the order of the calls. -/
def vm_map_add_entries (s : kstate) : List (Nat × Nat × Nat) → Option (kstate × List Nat)
  | [] => some (s, [])
  | r :: rs =>
    match vm_map_add_entry s r.1 r.2.1 r.2.2 with
    | none => none
    | some (s1, e) =>
      match vm_map_add_entries s1 rs with
      | none => none
      | some (s2, es) => some (s2, e :: es)

/-! ## Well-formed lists -/

/-- The address `vaddr` lies in the range `[start, end)` of the entry `e`. -/
def vm_map_entry_covers (s : kstate) (vaddr : Nat) (e : Nat) : Prop :=
  s.start e ≤ vaddr ∧ vaddr < s.end_ e

instance vm_map_entry_covers.decide (s : kstate) (vaddr e : Nat) :
    Decidable (vm_map_entry_covers s vaddr e) :=
  inferInstanceAs (Decidable (_ ∧ _))

/-- The cells starting at `p` link exactly the entries of the list, in order,
up to the end of the tail queue: every cell holds the next entry, every entry
points back to the cell that holds it, the last cell holds `NULL` and is the
one `tqh_last` points to. -/
def tq_chain (q : tailq) : tqe_ref → List Nat → Prop
  | p, [] => tq_load q p = some none ∧ q.tqh_last = p
  | p, e :: es => tq_load q p = some (some e) ∧ q.tqe_prev e = p ∧ tq_chain q (.tqe_next e) es

instance tq_chain.decide (q : tailq) : (p : tqe_ref) → (L : List Nat) → Decidable (tq_chain q p L)
  | _, [] => inferInstanceAs (Decidable (_ ∧ _))
  | _, e :: es =>
    have := tq_chain.decide q (.tqe_next e) es
    inferInstanceAs (Decidable (_ ∧ _ ∧ _))

/-- The map `s` holds exactly the entries of `L` in its list `map->list`, in
this order, each once. -/
def vm_map_list (s : kstate) (L : List Nat) : Prop :=
  L.Nodup ∧ tq_chain s.list .tqh_first L

/-- No address lies in the ranges of two different entries of `L`. -/
def vm_map_disjoint (s : kstate) (L : List Nat) : Prop :=
  ∀ x ∈ L, ∀ y ∈ L, x ≠ y → ∀ a, ¬ (vm_map_entry_covers s a x ∧ vm_map_entry_covers s a y)

/-- The ranges handed to `vm_map_add_entry` are acceptable for a map with
bounds `[lo, hi)`: non-empty, page-aligned, inside the bounds. -/
def vm_range_ok (lo hi : Nat) (r : Nat × Nat × Nat) : Prop :=
  lo ≤ r.1 ∧ r.1 < r.2.1 ∧ r.2.1 ≤ hi ∧ is_aligned r.1 PAGESIZE = true ∧ is_aligned r.2.1 PAGESIZE = true

instance vm_range_ok.decide (lo hi : Nat) (r : Nat × Nat × Nat) : Decidable (vm_range_ok lo hi r) :=
  inferInstanceAs (Decidable (_ ∧ _ ∧ _ ∧ _ ∧ _))

/-- Two ranges `[start, end)` have no address in common. -/
def vm_range_disjoint (r1 r2 : Nat × Nat × Nat) : Prop :=
  r1.2.1 ≤ r2.1 ∨ r2.2.1 ≤ r1.1

instance vm_range_disjoint.decide (r1 r2 : Nat × Nat × Nat) : Decidable (vm_range_disjoint r1 r2) :=
  inferInstanceAs (Decidable (_ ∨ _))

/-! ## The active map (`vm_map_activate` and friends) -/

/-- What the active-map functions execute, as far as an observer of the
critical section can tell: entering and leaving it, the store to the slot
`td_uspace`, and the switch of the page-table root. -/
inductive vm_active_event where
  /-- A call `cs_enter()`. -/
  | cs_enter : vm_active_event
  /-- A store of `map` to `thread_self()->td_uspace`. -/
  | td_uspace (map : Option Nat) : vm_active_event
  /-- A call `pmap_activate(pmap)`. -/
  | pmap_activate (pmap : Option Nat) : vm_active_event
  /-- A call `cs_leave()`. -/
  | cs_leave : vm_active_event
  deriving DecidableEq, Repr

/-- The state behind the active-map functions: the slot `td_uspace` of the
thread `thread_self()`, the page-table root the hardware runs on (the last
argument of `pmap_activate`), the nesting depth of critical sections, the
maps with their `pmap`s, and the record of what was executed so far. -/
structure vm_active where
  /-- Field `thread_self()->td_uspace`. -/
  td_uspace : Option Nat
  /-- The argument of the last call to `pmap_activate`. -/
  active_pmap : Option Nat
  /-- How many `cs_enter()` are not yet matched by a `cs_leave()`. -/
  cs_depth : Nat
  /-- The address of the static `kspace`. -/
  kspace : Nat
  /-- Field `map->pmap` of every map. -/
  pmap : Nat → Nat
  /-- Field `pmap->start` of every `pmap`. -/
  pmap_start : Nat → Nat
  /-- Field `pmap->end` of every `pmap`. -/
  pmap_end : Nat → Nat
  /-- Everything executed so far, oldest first. -/
  events : List vm_active_event

/-- Modelled from the spec: `cs_enter()` of `sync.h` (not part of the sources at
hand) opens a critical section that excludes interruption. -/
def cs_enter (s : vm_active) : vm_active :=
  { s with cs_depth := s.cs_depth + 1, events := s.events ++ [.cs_enter] }

/-- Modelled from the spec: `cs_leave()` of `sync.h` (not part of the sources at
hand) closes the critical section. -/
def cs_leave (s : vm_active) : vm_active :=
  { s with cs_depth := s.cs_depth - 1, events := s.events ++ [.cs_leave] }

/-- Modelled from the spec: `pmap_activate(pmap)` (not part of the sources at
hand) switches the hardware page-table root to `pmap`, or to the null root. -/
def pmap_activate (s : vm_active) (pmap : Option Nat) : vm_active :=
  { s with active_pmap := pmap, events := s.events ++ [.pmap_activate pmap] }

/-- The assignment `thread_self()->td_uspace = map`. -/
def set_td_uspace (s : vm_active) (map : Option Nat) : vm_active :=
  { s with td_uspace := map, events := s.events ++ [.td_uspace map] }

/-- The argument `map ? map->pmap : NULL` that `vm_map_activate` passes to
`pmap_activate`. -/
def vm_map_pmap (s : vm_active) (map : Option Nat) : Option Nat :=
  match map with
  | some m => some (s.pmap m)
  | none => none

/-- The states `vm_map_activate(map)` goes through, one after each of its four
statements. -/
def vm_map_activate_steps (s : vm_active) (map : Option Nat) : List vm_active :=
  let s1 := cs_enter s
  let s2 := set_td_uspace s1 map
  let s3 := pmap_activate s2 (vm_map_pmap s2 map)
  let s4 := cs_leave s3
  [s1, s2, s3, s4]

/-- The function `vm_map_activate`: its four statements in order. -/
def vm_map_activate (s : vm_active) (map : Option Nat) : vm_active :=
  let s1 := cs_enter s
  let s2 := set_td_uspace s1 map
  let s3 := pmap_activate s2 (vm_map_pmap s2 map)
  cs_leave s3

/-- The events of the record `es` that were executed while no critical section
was open, `depth` being the number of sections open where the record starts. -/
def events_outside_cs : Nat → List vm_active_event → List vm_active_event
  | _, [] => []
  | depth, .cs_enter :: es => events_outside_cs (depth + 1) es
  | depth, .cs_leave :: es => events_outside_cs (depth - 1) es
  | depth, e :: es =>
    if depth = 0 then e :: events_outside_cs depth es else events_outside_cs depth es

/-- The function `get_user_vm_map`. -/
def get_user_vm_map (s : vm_active) : Option Nat := s.td_uspace

/-- The function `get_kernel_vm_map`. -/
def get_kernel_vm_map (s : vm_active) : Option Nat := some s.kspace

/-- The function `in_range`. -/
def in_range (s : vm_active) (map : Option Nat) (addr : Nat) : Bool :=
  match map with
  | none => false
  | some m => s.pmap_start (s.pmap m) ≤ addr && addr < s.pmap_end (s.pmap m)

/-- The function `get_active_vm_map_by_addr`. -/
def get_active_vm_map_by_addr (s : vm_active) (addr : Nat) : Option Nat :=
  if in_range s (get_user_vm_map s) addr then get_user_vm_map s
  else if in_range s (get_kernel_vm_map s) addr then get_kernel_vm_map s
  else none

/-- The hardware root is the one of the thread's user map, or the null root
when the thread has no user map. -/
def vm_active_paired (s : vm_active) : Prop :=
  s.active_pmap = (match s.td_uspace with | some m => some (s.pmap m) | none => none)

/-! ## The fault handler (`vm_page_fault`) -/

/-- Modelled from the spec: the protection bits of `vm.h` (not part of the
sources at hand); the spec names a protection as a bitset over READ, WRITE, EXEC
with NONE the empty set. -/
def VM_PROT_NONE : Nat := 0

/-- Modelled from the spec: see `VM_PROT_NONE`. -/
def VM_PROT_READ : Nat := 1

/-- Modelled from the spec: see `VM_PROT_NONE`. -/
def VM_PROT_WRITE : Nat := 2

/-- Modelled from the spec: see `VM_PROT_NONE`. -/
def VM_PROT_EXEC : Nat := 4

/-- The collaborators of the fault handler: the resident pages of the objects,
the pager of the objects and the physical address of a frame. -/
structure vm_pager where
  /-- The result of `vm_object_find_page(object, offset)`. -/
  vm_object_find_page : Nat → Nat → Option Nat
  /-- The result of `obj->pgr->pgr_fault(obj, fault_page, offset, fault_type)`. -/
  pgr_fault : Nat → Nat → Nat → Nat → Option Nat
  /-- Field `frame->paddr` of every frame. -/
  paddr : Nat → Nat

/-- The calls `vm_page_fault` makes to its collaborators. -/
inductive vm_call where
  | log : vm_call
  | vm_object_find_page (object offset : Nat) : vm_call
  | pgr_fault (object fault_page offset fault_type : Nat) : vm_call
  | pmap_map (start end_ paddr prot : Nat) : vm_call
  deriving DecidableEq, Repr

/-- The ways `vm_page_fault` stops the kernel. -/
inductive vm_halt where
  /-- Text of the panic: `Tried to access unmapped memory region`. -/
  | panic_unmapped : vm_halt
  /-- Text of the panic: `Cannot access to address`. -/
  | panic_access : vm_halt
  /-- Text of the panic: `Cannot write to address`. -/
  | panic_write : vm_halt
  /-- Text of the panic: `Cannot read from address`. -/
  | panic_read : vm_halt
  /-- The assertion `entry->start <= fault_addr && fault_addr < entry->end` failed. -/
  | assert_range : vm_halt
  /-- The assertion `obj != NULL` failed. -/
  | assert_object : vm_halt
  /-- The pager returned no frame and `frame->paddr` was read. -/
  | null_frame : vm_halt
  deriving DecidableEq, Repr

/-- What a run of `vm_page_fault` did: the calls to the collaborators, oldest
first, and how it stopped the kernel (`none`: it returned). -/
structure vm_fault_run where
  calls : List vm_call
  halt : Option vm_halt
  deriving DecidableEq, Repr

/-- The function `vm_page_fault`.  The outer `none` means that the fuel of the
lookup ran out. -/
def vm_page_fault (c : vm_pager) (s : kstate) (fault_addr fault_type : Nat) (fuel : Nat) :
    Option vm_fault_run :=
  match vm_map_find_entry s fault_addr fuel with
  | none => none
  | some none => some ⟨[.log], some .panic_unmapped⟩
  | some (some entry) =>
    if s.prot entry = VM_PROT_NONE then some ⟨[.log], some .panic_access⟩
    else if s.prot entry &&& VM_PROT_WRITE = 0 ∧ fault_type = VM_PROT_WRITE then
      some ⟨[.log], some .panic_write⟩
    else if s.prot entry &&& VM_PROT_READ = 0 ∧ fault_type = VM_PROT_READ then
      some ⟨[.log], some .panic_read⟩
    else if ¬ (s.start entry ≤ fault_addr ∧ fault_addr < s.end_ entry) then
      some ⟨[.log], some .assert_range⟩
    else
      match s.object entry with
      | none => some ⟨[.log], some .assert_object⟩
      | some obj =>
        let fault_page := fault_addr &&& (VM_ADDR_MOD - PAGESIZE)
        let offset := (fault_page + VM_ADDR_MOD - s.start entry) % VM_ADDR_MOD
        let found := c.vm_object_find_page obj offset
        let calls1 := [vm_call.log, .vm_object_find_page obj offset]
        let resolved : List vm_call × Option Nat :=
          match found with
          | some frame => (calls1, some frame)
          | none =>
            (calls1 ++ [.pgr_fault obj fault_page offset fault_type],
              c.pgr_fault obj fault_page offset fault_type)
        match resolved with
        | (calls2, none) => some ⟨calls2, some .null_frame⟩
        | (calls2, some frame) =>
          some ⟨calls2 ++ [.pmap_map fault_addr ((fault_addr + PAGESIZE) % VM_ADDR_MOD)
                              (c.paddr frame) (s.prot entry)], none⟩

/-! ## Scenarios of the specification -/

/-- The state after the calls `rs` to `vm_map_add_entry` on a new map with
bounds `[lo, hi)`; the new map itself if one of the calls stopped the kernel. -/
def vm_map_scenario (lo hi : Nat) (rs : List (Nat × Nat × Nat)) : kstate :=
  match vm_map_add_entries (vm_map_new lo hi) rs with
  | some (s, _) => s
  | none => vm_map_new lo hi

/-- The invariant of a map built by `vm_map_add_entry` alone: its list is
well-formed and holds `L`, its tree holds entries of the list only, the entries
were handed out by `kmalloc` before, and `nentries` counts them. -/
def vm_map_inv (s : kstate) (L : List Nat) : Prop :=
  vm_map_list s L ∧ (∀ x ∈ s.tree.toList, x ∈ L) ∧ (∀ x ∈ L, x < s.brk) ∧
    s.nentries = L.length % 2 ^ 32

/-- A pager used in the scenarios: no page is resident, the pager hands out
frame `0`, whose physical address is `0`. -/
def vm_pager_scenario : vm_pager :=
  { vm_object_find_page := fun _ _ => none, pgr_fault := fun _ _ _ _ => some 0, paddr := fun _ => 0 }

/-- The assignment `entry->object = obj` by the caller of `vm_map_add_entry`,
who holds the entry that the call returned. -/
def vm_map_entry_set_object (s : kstate) (entry obj : Nat) : kstate :=
  { s with object := upd s.object entry (some obj) }

/-- A call on a map: `vm_map_add_entry(map, start, end, prot)` or
`vm_map_remove_entry(map, entry)`. -/
inductive vm_map_op where
  | add (start end_ prot : Nat) : vm_map_op
  | remove (entry : Nat) : vm_map_op
  deriving DecidableEq, Repr

/-- A sequence of calls on a map, in order; `none` when one of them stops the
kernel. -/
def vm_map_run (s : kstate) : List vm_map_op → Option kstate
  | [] => some s
  | .add a b p :: ops =>
    match vm_map_add_entry s a b p with
    | none => none
    | some (s1, _) => vm_map_run s1 ops
  | .remove e :: ops =>
    match vm_map_remove_entry s e with
    | none => none
    | some s1 => vm_map_run s1 ops

/-- The entries met by `TAILQ_FOREACH` from `etr_it` on, in order; `none` when
the fuel runs out before the end of the list. -/
def tq_entries (q : tailq) : Nat → Option Nat → Option (List Nat)
  | _, none => some []
  | 0, some _ => none
  | fuel + 1, some e =>
    match tq_entries q fuel (q.tqe_next e) with
    | none => none
    | some es => some (e :: es)

/-- The entries reachable through `map->list`, first to last. -/
def vm_map_list_entries (s : kstate) (fuel : Nat) : Option (List Nat) :=
  tq_entries s.list fuel s.list.tqh_first

/-- The access `fault_type` to an entry with protection `prot` passes the three
protection tests of `vm_page_fault`. -/
def vm_prot_permits (prot fault_type : Nat) : Prop :=
  prot ≠ VM_PROT_NONE ∧ ¬ (prot &&& VM_PROT_WRITE = 0 ∧ fault_type = VM_PROT_WRITE) ∧
    ¬ (prot &&& VM_PROT_READ = 0 ∧ fault_type = VM_PROT_READ)

instance vm_prot_permits.decide (prot fault_type : Nat) :
    Decidable (vm_prot_permits prot fault_type) :=
  inferInstanceAs (Decidable (_ ∧ _ ∧ _))

/-- The local `fault_page` of `vm_page_fault`: `fault_addr & -PAGESIZE`. -/
def vm_fault_page (fault_addr : Nat) : Nat := fault_addr &&& (VM_ADDR_MOD - PAGESIZE)

/-- The local `offset` of `vm_page_fault`: `fault_page - entry->start`, an
unsigned 32 bit subtraction. -/
def vm_fault_offset (s : kstate) (fault_addr entry : Nat) : Nat :=
  (vm_fault_page fault_addr + VM_ADDR_MOD - s.start entry) % VM_ADDR_MOD

/-- The scenario of the specification for the fault handler: a new map with
bounds `[0x1000, 0x9000)`, one entry `[0x2000, 0x4000)` with `READ|WRITE`
made by `vm_map_add_entry`, to which the caller has attached the object `obj`. -/
def vm_fault_scenario (obj : Nat) : kstate :=
  vm_map_entry_set_object (vm_map_scenario 0x1000 0x9000 [(0x2000, 0x4000, 3)]) 0 obj

/-! ## The PLIC driver (`sys/drv/plic.c`) -/

/-- The macro `PLIC_CTXNUM_SV`. -/
def PLIC_CTXNUM_SV : Nat := 1

/-- The macro `PLIC_PRIORITY_BASE`. -/
def PLIC_PRIORITY_BASE : Nat := 0x000000

/-- The macro `PLIC_CONTEXT_BASE`. -/
def PLIC_CONTEXT_BASE : Nat := 0x200000

/-- The macro `PLIC_CONTEXT_STRIDE`. -/
def PLIC_CONTEXT_STRIDE : Nat := 0x1000

/-- The macro `PLIC_CONTEXT_THRESHOLD`. -/
def PLIC_CONTEXT_THRESHOLD : Nat := 0x0

/-- The macro `PLIC_CONTEXT_BASE_SV`. -/
def PLIC_CONTEXT_BASE_SV : Nat := PLIC_CONTEXT_BASE + PLIC_CTXNUM_SV * PLIC_CONTEXT_STRIDE

/-- The macro `PLIC_PRIORITY(n)`; `sizeof(uint32_t)` is `4`. -/
def PLIC_PRIORITY (n : Nat) : Nat := PLIC_PRIORITY_BASE + n * 4

/-- The macro `PLIC_THRESHOLD_SV`. -/
def PLIC_THRESHOLD_SV : Nat := PLIC_CONTEXT_BASE_SV + PLIC_CONTEXT_THRESHOLD

/-- The value of `ENXIO`. -/
def ENXIO : Int := 6

/-- Conversion of an `unsigned` (32 bit) value to `int`, as done by
`return irq` in `plic_map_intr`. -/
def int_of_unsigned (n : Nat) : Int :=
  if n % 2 ^ 32 < 2 ^ 31 then (n % 2 ^ 32 : Nat) else ((n % 2 ^ 32 : Nat) : Int) - 2 ^ 32

/-- The fields of `plic_state_t` the functions at hand read and write, and
the registers of the device behind `plic->mem`. -/
structure plic_state where
  /-- Field `plic->ndev`. -/
  ndev : Nat
  /-- The array `plic->intr_event`, one slot per element allocated. -/
  intr_event : List (Option Nat)
  /-- The 32 bit registers of the device by offset (`in4`, `out4`). -/
  regs : Nat → Nat

/-- What `plic_attach` gets from its collaborators. -/
structure plic_env where
  /-- The property `riscv,ndev` of the node, if `FDT_getencprop` finds it with
  the size of a `uint32_t`. -/
  fdt_ndev : Option Nat
  /-- Whether `kmalloc` returns a block. -/
  kmalloc_ok : Bool
  /-- Whether `device_take_memory` returns a resource. -/
  mem_ok : Bool
  /-- Whether `device_take_irq` returns a resource. -/
  irq_ok : Bool

/-- The macro `out4(addr, val)`. -/
def out4 (plic : plic_state) (addr val : Nat) : plic_state :=
  { plic with regs := upd plic.regs addr val }

/-- The function `plic_map_intr`; `intr` is the cell `*intr`. -/
def plic_map_intr (plic : plic_state) (intr : Nat) (icells : Int) : Int :=
  if icells ≠ 1 then -1
  else if intr = 0 ∨ intr > plic.ndev then -1
  else int_of_unsigned intr

/-- The function `plic_setup_intr` for a resource that starts at `irq`;
`event` is what `intr_event_create` returns.  `none` means that the kernel
stopped at the assertion, or that the array was indexed outside its elements. -/
def plic_setup_intr (plic : plic_state) (irq event : Nat) : Option plic_state :=
  if ¬ (irq ≠ 0 ∧ irq < plic.ndev) then none
  else
    match plic.intr_event[irq]? with
    | none => none
    | some none => some { plic with intr_event := plic.intr_event.set irq (some event) }
    | some (some _) => some plic

/-- The function `plic_attach`: the value returned and the state left; `none`
means that the kernel stopped at an assertion. -/
def plic_attach (env : plic_env) (plic : plic_state) : Option (Int × plic_state) :=
  match env.fdt_ndev with
  | none => some ( ENXIO, plic)
  | some n =>
    let plic1 := { plic with ndev := n }
    if ¬ env.kmalloc_ok then some ( ENXIO, { plic1 with intr_event := [] })
    else
      let plic2 := { plic1 with intr_event := List.replicate plic1.ndev none }
      if ¬ env.mem_ok then none
      else
        let plic3 := (List.range plic2.ndev).foldl (fun st irq => out4 st (PLIC_PRIORITY irq) 1) plic2
        let plic4 := out4 plic3 PLIC_THRESHOLD_SV 0
        if ¬ env.irq_ok then none
        else some (0, plic4)

/-- The state `plic_attach` leaves for a device with `ndev` sources whose
registers are all zero beforehand, every collaborator succeeding; the state
before the call if the call does not return `0`. -/
def plic_scenario (ndev : Nat) : plic_state :=
  match plic_attach ⟨some ndev, true, true, true⟩ ⟨0, [], fun _ => 0⟩ with
  | some (0, plic) => plic
  | _ => ⟨0, [], fun _ => 0⟩

/-! ## Lookup in a well-formed list -/

theorem upd_same {α : Type} (f : Nat → α) (e : Nat) (v : α) : upd f e v e = v := by
  simp [upd]

theorem upd_other {α : Type} (f : Nat → α) (e i : Nat) (v : α) (h : i ≠ e) : upd f e v i = f i := by
  simp [upd, h]

theorem vm_map_find_entry_loop_none (s : kstate) (a fuel : Nat) :
    vm_map_find_entry_loop s a fuel none = some none := by
  cases fuel <;> rfl

/-- On a chain of entries the loop of `vm_map_find_entry` returns the first
entry of the chain that covers the address, given fuel for every entry. -/
theorem vm_map_find_entry_loop_chain (s : kstate) (a : Nat) :
    ∀ (L : List Nat) (p : tqe_ref) (c : Option Nat) (fuel : Nat),
      tq_chain s.list p L → tq_load s.list p = some c → L.length ≤ fuel →
      vm_map_find_entry_loop s a fuel c
        = some (L.find? (fun e => decide (vm_map_entry_covers s a e))) := by
  intro L
  induction L with
  | nil =>
    intro p c fuel hc hl _
    have h1 : tq_load s.list p = some none := hc.1
    rw [h1] at hl
    cases hl
    simp [vm_map_find_entry_loop_none]
  | cons e es ih =>
    intro p c fuel hc hl hf
    obtain ⟨h1, _, h3⟩ := hc
    rw [h1] at hl
    cases hl
    cases fuel with
    | zero => simp at hf
    | succ f =>
      have hf' : es.length ≤ f := by simpa using hf
      by_cases hcov : vm_map_entry_covers s a e
      · have hcov' := hcov
        unfold vm_map_entry_covers at hcov'
        simp [vm_map_find_entry_loop, hcov', List.find?, hcov]
      · have hcov' := hcov
        unfold vm_map_entry_covers at hcov'
        have := ih (.tqe_next e) (s.list.tqe_next e) f h3 rfl hf'
        simp only [vm_map_find_entry_loop, hcov', if_false, this]
        simp [List.find?, hcov]

theorem vm_map_find_entry_list (s : kstate) (L : List Nat) (a fuel : Nat)
    (hL : vm_map_list s L) (hf : L.length ≤ fuel) :
    vm_map_find_entry s a fuel = some (L.find? (fun e => decide (vm_map_entry_covers s a e))) :=
  vm_map_find_entry_loop_chain s a L .tqh_first s.list.tqh_first fuel hL.2 rfl hf

/-- In a list without overlap, the first entry that covers an address is the
only one. -/
theorem find_covers_of_disjoint (s : kstate) (L : List Nat) (a e : Nat)
    (hd : vm_map_disjoint s L) (he : e ∈ L) (hc : vm_map_entry_covers s a e) :
    L.find? (fun x => decide (vm_map_entry_covers s a x)) = some e := by
  cases hfind : L.find? (fun x => decide (vm_map_entry_covers s a x)) with
  | none =>
    rw [List.find?_eq_none] at hfind
    have := hfind e he
    simp [hc] at this
  | some x =>
    have hx : vm_map_entry_covers s a x := by simpa using List.find?_some hfind
    have hxm : x ∈ L := List.mem_of_find?_eq_some hfind
    by_cases hxe : x = e
    · rw [hxe]
    · exact absurd ⟨hx, hc⟩ (hd x hxm e he hxe a)

theorem find_covers_none (s : kstate) (L : List Nat) (a : Nat)
    (hno : ∀ e ∈ L, ¬ vm_map_entry_covers s a e) :
    L.find? (fun x => decide (vm_map_entry_covers s a x)) = none := by
  rw [List.find?_eq_none]
  intro x hx
  simpa using hno x hx

/-! ## The fault handler: fatal paths -/

/-- C9: if no entry of the map covers the fault address, `vm_page_fault` stops in
the panic for unmapped memory, having called neither `vm_object_find_page`, nor
the pager, nor `pmap_map` (the only call made is the one to `log`). -/
theorem vm_page_fault_unmapped (c : vm_pager) (s : kstate) (L : List Nat)
    (fault_addr fault_type fuel : Nat)
    (hL : vm_map_list s L) (hfuel : L.length ≤ fuel)
    (hno : ∀ e ∈ L, ¬ vm_map_entry_covers s fault_addr e) :
    vm_page_fault c s fault_addr fault_type fuel = some ⟨[.log], some .panic_unmapped⟩ := by
  unfold vm_page_fault
  rw [vm_map_find_entry_list s L fault_addr fuel hL hfuel, find_covers_none s L fault_addr hno]

/-- C9, the scenario of the specification: bounds `[0x1000, 0x9000)`, one entry
`[0x2000, 0x4000)`, read fault at `0x5000`. -/
theorem vm_page_fault_unmapped_witness :
    vm_map_list (vm_map_scenario 0x1000 0x9000 [(0x2000, 0x4000, 3)]) [0] ∧
    vm_page_fault vm_pager_scenario (vm_map_scenario 0x1000 0x9000 [(0x2000, 0x4000, 3)])
      0x5000 VM_PROT_READ 1 = some ⟨[.log], some .panic_unmapped⟩ :=
  ⟨⟨by decide, by decide!⟩,
   vm_page_fault_unmapped vm_pager_scenario _ [0] 0x5000 VM_PROT_READ 1
     ⟨by decide, by decide!⟩ (by decide) (by decide!)⟩

/-- C10: when the lookup yields an entry (the first entry of the list that covers
the fault address) and the entry's protection is `VM_PROT_NONE`, or the access
is a write and the protection lacks `VM_PROT_WRITE`, or the access is a read and
the protection lacks `VM_PROT_READ`, then `vm_page_fault` stops in one of its
three protection panics, and the only call made before is the one to `log`:
no page was looked up, the pager was not called, nothing was mapped. -/
theorem vm_page_fault_protection (c : vm_pager) (s : kstate) (L : List Nat)
    (fault_addr fault_type fuel e : Nat)
    (hL : vm_map_list s L) (hfuel : L.length ≤ fuel)
    (he : L.find? (fun x => decide (vm_map_entry_covers s fault_addr x)) = some e)
    (hprot : s.prot e = VM_PROT_NONE
      ∨ (fault_type = VM_PROT_WRITE ∧ s.prot e &&& VM_PROT_WRITE = 0)
      ∨ (fault_type = VM_PROT_READ ∧ s.prot e &&& VM_PROT_READ = 0)) :
    ∃ h, vm_page_fault c s fault_addr fault_type fuel = some ⟨[.log], some h⟩
      ∧ (h = .panic_access ∨ h = .panic_write ∨ h = .panic_read)
      ∧ (h = .panic_access ↔ s.prot e = VM_PROT_NONE) := by
  unfold vm_page_fault
  rw [vm_map_find_entry_list s L fault_addr fuel hL hfuel, he]
  by_cases h0 : s.prot e = VM_PROT_NONE
  · exact ⟨.panic_access, by simp only [if_pos h0], by simp, by simp [h0]⟩
  · by_cases hw : s.prot e &&& VM_PROT_WRITE = 0 ∧ fault_type = VM_PROT_WRITE
    · exact ⟨.panic_write, by simp only [if_neg h0, if_pos hw], by simp, by simp [h0]⟩
    · by_cases hr : s.prot e &&& VM_PROT_READ = 0 ∧ fault_type = VM_PROT_READ
      · exact ⟨.panic_read, by simp only [if_neg h0, if_neg hw, if_pos hr], by simp, by simp [h0]⟩
      · exfalso
        rcases hprot with h | ⟨h1, h2⟩ | ⟨h1, h2⟩
        · exact h0 h
        · exact hw ⟨h2, h1⟩
        · exact hr ⟨h2, h1⟩

/-- C10, the scenario of the specification: entry `[0x2000, 0x3000)` with
`VM_PROT_READ` only, write fault at `0x2100`. -/
theorem vm_page_fault_protection_witness :
    ∃ h, vm_page_fault vm_pager_scenario (vm_map_scenario 0x1000 0x9000 [(0x2000, 0x3000, 1)])
        0x2100 VM_PROT_WRITE 1 = some ⟨[.log], some h⟩
      ∧ (h = .panic_access ∨ h = .panic_write ∨ h = .panic_read)
      ∧ (h = .panic_access ↔
          (vm_map_scenario 0x1000 0x9000 [(0x2000, 0x3000, 1)]).prot 0 = VM_PROT_NONE) :=
  vm_page_fault_protection vm_pager_scenario _ [0] 0x2100 VM_PROT_WRITE 1 0
    ⟨by decide, by decide!⟩ (by decide) (by decide!) (Or.inr (Or.inl ⟨rfl, by decide!⟩))

/-! ## The active map -/

/-- The two updates executed with no critical section open are both outside
one, and a root switched after `cs_leave()` is outside it as well. -/
theorem events_outside_cs_unprotected (map pmap : Option Nat) :
    events_outside_cs 0 [.td_uspace map, .pmap_activate pmap] =
      [.td_uspace map, .pmap_activate pmap] ∧
    events_outside_cs 0 [.cs_enter, .td_uspace map, .cs_leave, .pmap_activate pmap] =
      [.pmap_activate pmap] := by
  simp [events_outside_cs]

/-- C6: `get_user_vm_map()` right after `vm_map_activate(map)` returns `map`, for
a map as for `NULL`. -/
theorem get_user_vm_map_activate (s : vm_active) (map : Option Nat) :
    get_user_vm_map (vm_map_activate s map) = map ∧
    (∀ m, get_user_vm_map (vm_map_activate s (some m)) = some m) ∧
    get_user_vm_map (vm_map_activate s none) = none := by
  simp [get_user_vm_map, vm_map_activate, cs_leave, cs_enter, pmap_activate, set_td_uspace]

/-- C7: `vm_map_activate(map)` ends with the slot `td_uspace` holding `map` and
the hardware root being `map->pmap` for a map and the null root for `NULL`;
the root is null exactly when the slot is; the critical section is closed
again, and every state the function goes through in which slot and root do not
correspond lies inside the critical section.  What the function executes is,
in this order and nothing else: `cs_enter()`, the store of `map` to the slot,
`pmap_activate` of the root of `map`, `cs_leave()`; so both updates happen
between `cs_enter` and `cs_leave`: whatever the depth of critical sections at
the call, none of the function's events is executed outside a critical
section, and the depth is one above the caller's after each of the first three
statements and the caller's again after the fourth. -/
theorem vm_map_activate_paired (s : vm_active) (map : Option Nat) :
    (vm_map_activate_steps s map).getLast? = some (vm_map_activate s map) ∧
    (vm_map_activate s map).td_uspace = map ∧
    (∀ m, map = some m → (vm_map_activate s map).active_pmap = some (s.pmap m)) ∧
    ((vm_map_activate s map).active_pmap = none ↔ map = none) ∧
    vm_active_paired (vm_map_activate s map) ∧
    (vm_map_activate s map).cs_depth = s.cs_depth ∧
    (∀ st ∈ vm_map_activate_steps s map, ¬ vm_active_paired st → s.cs_depth < st.cs_depth) ∧
    (vm_map_activate s map).events =
      s.events ++
        [.cs_enter, .td_uspace map, .pmap_activate (vm_map_pmap s map), .cs_leave] ∧
    (∀ depth,
      events_outside_cs depth ((vm_map_activate s map).events.drop s.events.length) = []) ∧
    (vm_map_activate_steps s map).map (fun st => st.cs_depth) =
      [s.cs_depth + 1, s.cs_depth + 1, s.cs_depth + 1, s.cs_depth] ∧
    (vm_map_activate_steps s map).map (fun st => st.events) =
      [s.events ++ [.cs_enter],
        s.events ++ [.cs_enter, .td_uspace map],
        s.events ++ [.cs_enter, .td_uspace map, .pmap_activate (vm_map_pmap s map)],
        s.events ++
          [.cs_enter, .td_uspace map, .pmap_activate (vm_map_pmap s map), .cs_leave]] ∧
    (vm_map_activate_steps s map).map (fun st => (st.td_uspace, st.active_pmap)) =
      [(s.td_uspace, s.active_pmap), (map, s.active_pmap), (map, vm_map_pmap s map),
        (map, vm_map_pmap s map)] := by
  cases map with
  | none =>
    simp [vm_map_activate_steps, vm_map_activate, cs_leave, cs_enter, pmap_activate,
      set_td_uspace, vm_map_pmap, vm_active_paired, events_outside_cs]
  | some m =>
    simp [vm_map_activate_steps, vm_map_activate, cs_leave, cs_enter, pmap_activate,
      set_td_uspace, vm_map_pmap, vm_active_paired, events_outside_cs]

/-- C8: `get_active_vm_map_by_addr(addr)` is the user map when one is active and
`addr` lies in the bounds of its `pmap`; otherwise the kernel map when `addr`
lies in the bounds of the kernel `pmap`; otherwise `NULL`.  So without a user
map only the kernel bounds count, and an address in the bounds of the user map
goes to the user map, whether or not it lies in the kernel bounds as well. -/
theorem get_active_vm_map_by_addr_spec (s : vm_active) (addr : Nat) :
    (get_active_vm_map_by_addr s addr =
      match s.td_uspace with
      | some u =>
        if s.pmap_start (s.pmap u) ≤ addr ∧ addr < s.pmap_end (s.pmap u) then some u
        else if s.pmap_start (s.pmap s.kspace) ≤ addr ∧ addr < s.pmap_end (s.pmap s.kspace)
          then some s.kspace else none
      | none =>
        if s.pmap_start (s.pmap s.kspace) ≤ addr ∧ addr < s.pmap_end (s.pmap s.kspace)
          then some s.kspace else none) ∧
    (s.td_uspace = none →
      get_active_vm_map_by_addr s addr =
        if s.pmap_start (s.pmap s.kspace) ≤ addr ∧ addr < s.pmap_end (s.pmap s.kspace)
          then some s.kspace else none) ∧
    (∀ u, s.td_uspace = some u →
      s.pmap_start (s.pmap u) ≤ addr → addr < s.pmap_end (s.pmap u) →
      get_active_vm_map_by_addr s addr = some u) := by
  unfold get_active_vm_map_by_addr get_user_vm_map get_kernel_vm_map in_range
  refine ⟨?_, ?_, ?_⟩
  · cases s.td_uspace with
    | none => simp
    | some u => simp
  · intro h
    rw [h]
    simp
  · intro u h h1 h2
    rw [h]
    simp [h1, h2]

/-! ## The splay tree keeps its entries -/

theorem vm_map_entry_cmp_self (s : kstate) (a : Nat) : vm_map_entry_cmp s a a = 0 := by
  simp [vm_map_entry_cmp, int_of_vm_addr, VM_ADDR_MOD]

theorem vm_map_entry_cmp_eq_zero (s : kstate) (a b : Nat) (ha : s.start a < VM_ADDR_MOD)
    (h : vm_map_entry_cmp s a b = 0) : s.start a = s.start b := by
  unfold vm_map_entry_cmp int_of_vm_addr at h
  unfold VM_ADDR_MOD at h ha
  split at h
  · omega
  · split at h
    · omega
    · omega

theorem exists_mem_cons_and {α : Type} (P : α → Prop) (a : α) (l : List α) :
    (∃ p, p ∈ a :: l ∧ P p) ↔ P a ∨ ∃ p, p ∈ l ∧ P p := by
  constructor
  · rintro ⟨p, hp, h⟩
    rcases List.mem_cons.1 hp with rfl | hp
    · exact Or.inl h
    · exact Or.inr ⟨p, hp, h⟩
  · rintro (h | ⟨p, hp, h⟩)
    · exact ⟨a, List.mem_cons_self _ _, h⟩
    · exact ⟨p, List.mem_cons_of_mem _ hp, h⟩

theorem foldl_left_mem (y : Nat) : ∀ (L : List (vm_map_tree × Nat)) (l : vm_map_tree),
    y ∈ (L.foldl (fun acc p => vm_map_tree.node p.1 p.2 acc) l).toList ↔
      y ∈ l.toList ∨ ∃ p ∈ L, y = p.2 ∨ y ∈ p.1.toList := by
  intro L
  induction L with
  | nil => intro l; simp
  | cons p ps ih =>
    intro l
    rw [List.foldl_cons, ih, exists_mem_cons_and]
    simp only [vm_map_tree.toList, List.mem_append, List.mem_cons]
    generalize (∃ q ∈ ps, _) = E
    tauto

theorem foldl_right_mem (y : Nat) : ∀ (R : List (Nat × vm_map_tree)) (r : vm_map_tree),
    y ∈ (R.foldl (fun acc p => vm_map_tree.node acc p.1 p.2) r).toList ↔
      y ∈ r.toList ∨ ∃ p ∈ R, y = p.1 ∨ y ∈ p.2.toList := by
  intro R
  induction R with
  | nil => intro r; simp
  | cons p ps ih =>
    intro r
    rw [List.foldl_cons, ih, exists_mem_cons_and]
    simp only [vm_map_tree.toList, List.mem_append, List.mem_cons]
    generalize (∃ q ∈ ps, _) = E
    tauto

theorem SPLAY_ASSEMBLE_mem (y : Nat) (l : vm_map_tree) (x : Nat) (r : vm_map_tree)
    (L : List (vm_map_tree × Nat)) (R : List (Nat × vm_map_tree)) :
    y ∈ (SPLAY_ASSEMBLE l x r L R).toList ↔
      y ∈ (vm_map_tree.node l x r).toList ∨ (∃ p ∈ L, y = p.2 ∨ y ∈ p.1.toList)
        ∨ (∃ p ∈ R, y = p.1 ∨ y ∈ p.2.toList) := by
  simp only [SPLAY_ASSEMBLE, vm_map_tree.toList, List.mem_append, List.mem_cons,
    foldl_left_mem, foldl_right_mem]
  generalize (∃ q ∈ L, _) = E
  generalize (∃ q ∈ R, _) = F
  tauto


theorem SPLAY_loop_node (cmp : Nat → Int) (l : vm_map_tree) (x : Nat) (r : vm_map_tree)
    (L : List (vm_map_tree × Nat)) (R : List (Nat × vm_map_tree)) :
    SPLAY_loop cmp (.node l x r) L R =
    if cmp x = 0 then SPLAY_ASSEMBLE l x r L R
    else if cmp x < 0 then
      match l with
      | .leaf => SPLAY_ASSEMBLE .leaf x r L R
      | .node ll lx lr =>
        if cmp lx < 0 then
          match ll with
          | .leaf => SPLAY_ASSEMBLE .leaf lx (.node lr x r) L R
          | .node a y b => SPLAY_loop cmp (.node a y b) L ((lx, .node lr x r) :: R)
        else
          SPLAY_loop cmp (.node ll lx lr) L ((x, r) :: R)
    else
      match r with
      | .leaf => SPLAY_ASSEMBLE l x .leaf L R
      | .node rl rx rr =>
        if cmp rx > 0 then
          match rr with
          | .leaf => SPLAY_ASSEMBLE (.node l x rl) rx .leaf L R
          | .node a y b => SPLAY_loop cmp (.node a y b) ((.node l x rl, rx) :: L) R
        else
          SPLAY_loop cmp (.node rl rx rr) ((l, x) :: L) R := by
  rw [SPLAY_loop.eq_def]

/-- Splaying keeps the entries: the tree that `vm_map_tree_SPLAY` leaves holds
the entries of the tree it started from and of the two trees under
construction, and it is not empty. -/
theorem SPLAY_loop_mem (cmp : Nat → Int) (y : Nat) :
    ∀ (t : vm_map_tree) (L : List (vm_map_tree × Nat)) (R : List (Nat × vm_map_tree)),
      t ≠ .leaf →
      (y ∈ (SPLAY_loop cmp t L R).toList ↔
        y ∈ t.toList ∨ (∃ p, p ∈ L ∧ (y = p.2 ∨ y ∈ p.1.toList))
          ∨ (∃ p, p ∈ R ∧ (y = p.1 ∨ y ∈ p.2.toList))) := by
  intro t L R
  induction t, L, R using SPLAY_loop.induct cmp with
  | case1 => intro h; exact absurd rfl h
  | case2 l x r L R h0 =>
    intro _
    rw [SPLAY_loop_node, if_pos h0, SPLAY_ASSEMBLE_mem]
  | case3 x r L R h0 h1 =>
    intro _
    rw [SPLAY_loop_node, if_neg h0, if_pos h1, SPLAY_ASSEMBLE_mem]
  | case4 x r L R h0 h1 a ar h2 =>
    intro _
    rw [SPLAY_loop_node, if_neg h0, if_pos h1]
    simp only [if_pos h2]
    rw [SPLAY_ASSEMBLE_mem]
    simp only [vm_map_tree.toList, List.mem_append, List.mem_cons,
      List.nil_append, List.not_mem_nil, false_or]
    generalize (∃ q, q ∈ L ∧ _) = E
    generalize (∃ q, q ∈ R ∧ _) = F
    simp only [or_assoc, or_comm, or_left_comm]
  | case5 x r L R h0 h1 a ar h2 ll lx lr ih =>
    intro _
    rw [SPLAY_loop_node, if_neg h0, if_pos h1]
    simp only [if_pos h2]
    rw [ih (by simp), exists_mem_cons_and]
    simp only [vm_map_tree.toList, List.mem_append, List.mem_cons]
    generalize (∃ q, q ∈ L ∧ _) = E
    generalize (∃ q, q ∈ R ∧ _) = F
    simp only [or_assoc, or_comm, or_left_comm]
  | case6 x r L R h0 h1 ll lx lr h2 ih =>
    intro _
    rw [SPLAY_loop_node, if_neg h0, if_pos h1]
    simp only [if_neg h2]
    rw [ih (by simp), exists_mem_cons_and]
    simp only [vm_map_tree.toList, List.mem_append, List.mem_cons]
    generalize (∃ q, q ∈ L ∧ _) = E
    generalize (∃ q, q ∈ R ∧ _) = F
    simp only [or_assoc, or_comm, or_left_comm]
  | case7 l x L R h0 h1 =>
    intro _
    rw [SPLAY_loop_node, if_neg h0, if_neg h1, SPLAY_ASSEMBLE_mem]
  | case8 l x L R h0 h1 a ax h2 =>
    intro _
    rw [SPLAY_loop_node, if_neg h0, if_neg h1]
    simp only [if_pos h2]
    rw [SPLAY_ASSEMBLE_mem]
    simp only [vm_map_tree.toList, List.mem_append, List.mem_cons,
      List.append_nil, List.not_mem_nil, or_false]
    generalize (∃ q, q ∈ L ∧ _) = E
    generalize (∃ q, q ∈ R ∧ _) = F
    simp only [or_assoc, or_comm, or_left_comm]
  | case9 l x L R h0 h1 a ax h2 rl rx rr ih =>
    intro _
    rw [SPLAY_loop_node, if_neg h0, if_neg h1]
    simp only [if_pos h2]
    rw [ih (by simp), exists_mem_cons_and]
    simp only [vm_map_tree.toList, List.mem_append, List.mem_cons]
    generalize (∃ q, q ∈ L ∧ _) = E
    generalize (∃ q, q ∈ R ∧ _) = F
    simp only [or_assoc, or_comm, or_left_comm]
  | case10 l x L R h0 h1 rl rx rr h2 ih =>
    intro _
    rw [SPLAY_loop_node, if_neg h0, if_neg h1]
    simp only [if_neg h2]
    rw [ih (by simp), exists_mem_cons_and]
    simp only [vm_map_tree.toList, List.mem_append, List.mem_cons]
    generalize (∃ q, q ∈ L ∧ _) = E
    generalize (∃ q, q ∈ R ∧ _) = F
    simp only [or_assoc, or_comm, or_left_comm]

theorem vm_map_tree_SPLAY_mem (s : kstate) (t : vm_map_tree) (elm y : Nat) (ht : t ≠ .leaf) :
    y ∈ (vm_map_tree_SPLAY s t elm).toList ↔ y ∈ t.toList := by
  unfold vm_map_tree_SPLAY
  rw [SPLAY_loop_mem _ y t [] [] ht]
  simp

theorem vm_map_tree.leftmost_mem : ∀ (t : vm_map_tree) (y : Nat),
    t.leftmost = some y → y ∈ t.toList := by
  intro t
  induction t with
  | leaf => intro y h; simp [vm_map_tree.leftmost] at h
  | node l x r ihl _ =>
    intro y h
    unfold vm_map_tree.leftmost at h
    cases hl : l.leftmost with
    | none =>
      rw [hl] at h
      simp only [Option.some.injEq] at h
      simp [vm_map_tree.toList, h]
    | some z =>
      rw [hl] at h
      simp only [Option.some.injEq] at h
      subst h
      simp [vm_map_tree.toList, ihl z hl]

/-- What `SPLAY_INSERT` returns: either `NULL` and a tree with `elm` at the
root over the entries of the old tree, or an entry of the old tree that
compares equal to `elm`, the tree keeping its entries. -/
theorem vm_map_tree_SPLAY_INSERT_spec (s : kstate) (t : vm_map_tree) (elm : Nat) :
    (∃ A B, vm_map_tree_SPLAY_INSERT s t elm = (.node A elm B, none)
        ∧ (∀ y, y ∈ B.toList → y ∈ t.toList)
        ∧ (∀ y, y ∈ (vm_map_tree.node A elm B).toList ↔ y = elm ∨ y ∈ t.toList))
    ∨ (∃ t1 x, vm_map_tree_SPLAY_INSERT s t elm = (t1, some x)
        ∧ x ∈ t.toList ∧ vm_map_entry_cmp s elm x = 0
        ∧ (∀ y, y ∈ t1.toList ↔ y ∈ t.toList)) := by
  cases t with
  | leaf =>
    left
    exact ⟨.leaf, .leaf, rfl, by simp [vm_map_tree.toList], by simp [vm_map_tree.toList]⟩
  | node l0 x0 r0 =>
    have hmem := fun y => vm_map_tree_SPLAY_mem s (.node l0 x0 r0) elm y (by simp)
    unfold vm_map_tree_SPLAY_INSERT
    cases hu : vm_map_tree_SPLAY s (.node l0 x0 r0) elm with
    | leaf =>
      have := (hmem x0).2 (by simp [vm_map_tree.toList])
      rw [hu] at this
      simp [vm_map_tree.toList] at this
    | node l x r =>
      rw [hu] at hmem
      simp only
      by_cases h1 : vm_map_entry_cmp s elm x < 0
      · left
        refine ⟨l, .node .leaf x r, by rw [if_pos h1], ?_, ?_⟩
        · intro y hy
          apply (hmem y).1
          simp only [vm_map_tree.toList, List.mem_append, List.mem_cons, List.nil_append] at hy ⊢
          tauto
        · intro y
          rw [← hmem y]
          simp only [vm_map_tree.toList, List.mem_append, List.mem_cons, List.nil_append]
          tauto
      · by_cases h2 : vm_map_entry_cmp s elm x > 0
        · left
          refine ⟨.node l x .leaf, r, by rw [if_neg h1, if_pos h2], ?_, ?_⟩
          · intro y hy
            apply (hmem y).1
            simp only [vm_map_tree.toList, List.mem_append, List.mem_cons]
            tauto
          · intro y
            rw [← hmem y]
            simp only [vm_map_tree.toList, List.mem_append, List.mem_cons, List.append_nil,
              List.not_mem_nil, or_false]
            tauto
        · right
          refine ⟨.node l x r, x, by rw [if_neg h1, if_neg h2], ?_, by omega, hmem⟩
          apply (hmem x).1
          simp [vm_map_tree.toList]

theorem vm_map_tree_SPLAY_NEXT_root (s : kstate) (A : vm_map_tree) (elm : Nat) (B : vm_map_tree) :
    vm_map_tree_SPLAY_NEXT s (.node A elm B) elm = (.node A elm B, B.leftmost) := by
  have h : vm_map_tree_SPLAY s (.node A elm B) elm = .node A elm B := by
    unfold vm_map_tree_SPLAY
    rw [SPLAY_loop_node, if_pos (vm_map_entry_cmp_self s elm)]
    simp [SPLAY_ASSEMBLE]
  unfold vm_map_tree_SPLAY_NEXT
  simp only [h, vm_map_tree.right_of, if_true]

/-! ## The tail queue macros on a well-formed list -/

theorem tq_store_spec (q q1 : tailq) (p : tqe_ref) (v : Option Nat)
    (h : tq_store q p v = some q1) :
    q1.tqh_last = q.tqh_last ∧ q1.tqe_prev = q.tqe_prev ∧
      ∀ c, tq_load q1 c = if c = p then some v else tq_load q c := by
  cases p with
  | null => simp [tq_store] at h
  | tqh_first =>
    simp only [tq_store, Option.some.injEq] at h
    subst h
    refine ⟨rfl, rfl, ?_⟩
    intro c
    cases c <;> simp [tq_load]
  | tqe_next e =>
    simp only [tq_store, Option.some.injEq] at h
    subst h
    refine ⟨rfl, rfl, ?_⟩
    intro c
    cases c with
    | null => simp [tq_load]
    | tqh_first => simp [tq_load]
    | tqe_next e1 =>
      by_cases he : e1 = e
      · simp [tq_load, upd, he]
      · simp [tq_load, upd, he]

theorem tq_store_some (q : tailq) (p : tqe_ref) (v : Option Nat) (hp : p ≠ .null) :
    ∃ q1, tq_store q p v = some q1 := by
  cases p with
  | null => exact absurd rfl hp
  | tqh_first => exact ⟨_, rfl⟩
  | tqe_next e => exact ⟨_, rfl⟩

theorem tq_load_ne_null (q : tailq) (p : tqe_ref) (v : Option Nat) (h : tq_load q p = some v) :
    p ≠ .null := by
  intro hp
  rw [hp] at h
  simp [tq_load] at h

/-- A chain is kept by a change of the pointers that leaves its cells, the
back pointers of its entries and `tqh_last` alone. -/
theorem tq_chain_frame (q q1 : tailq) : ∀ (L : List Nat) (p : tqe_ref),
    tq_chain q p L → tq_load q1 p = tq_load q p →
    (∀ e ∈ L, q1.tqe_next e = q.tqe_next e ∧ q1.tqe_prev e = q.tqe_prev e) →
    q1.tqh_last = q.tqh_last → tq_chain q1 p L := by
  intro L
  induction L with
  | nil =>
    intro p hc hl _ hlast
    exact ⟨by rw [hl]; exact hc.1, by rw [hlast]; exact hc.2⟩
  | cons e es ih =>
    intro p hc hl hL hlast
    obtain ⟨h1, h2, h3⟩ := hc
    refine ⟨by rw [hl]; exact h1, by rw [(hL e (List.mem_cons_self _ _)).2]; exact h2, ?_⟩
    apply ih _ h3
    · simp only [tq_load]
      rw [(hL e (List.mem_cons_self _ _)).1]
    · intro x hx
      exact hL x (List.mem_cons_of_mem _ hx)
    · exact hlast

theorem tq_chain_last (q : tailq) : ∀ (L : List Nat) (p : tqe_ref),
    tq_chain q p L → tq_load q q.tqh_last = some none := by
  intro L
  induction L with
  | nil => intro p hc; rw [hc.2]; exact hc.1
  | cons e es ih => intro p hc; exact ih _ hc.2.2

theorem tq_chain_head_mem (q : tailq) (L : List Nat) (p : tqe_ref) (z : Nat)
    (hc : tq_chain q p L) (h : tq_load q p = some (some z)) : z ∈ L := by
  cases L with
  | nil =>
    have := hc.1
    rw [h] at this
    simp at this
  | cons e es =>
    have := hc.1
    rw [h] at this
    simp only [Option.some.injEq] at this
    simp [this]

theorem tq_chain_next_mem (q : tailq) : ∀ (L : List Nat) (p : tqe_ref) (e z : Nat),
    tq_chain q p L → e ∈ L → q.tqe_next e = some z → z ∈ L := by
  intro L
  induction L with
  | nil => intro p e z _ he; simp at he
  | cons x xs ih =>
    intro p e z hc he hz
    obtain ⟨_, _, h3⟩ := hc
    rcases List.mem_cons.1 he with rfl | he
    · exact List.mem_cons_of_mem _ (tq_chain_head_mem q xs _ z h3 (by simp [tq_load, hz]))
    · exact List.mem_cons_of_mem _ (ih _ e z h3 he hz)

/-- In a chain the back pointer of an entry points to the cell that holds the
entry. -/
theorem tq_chain_prev (q : tailq) : ∀ (L : List Nat) (p : tqe_ref) (e : Nat),
    tq_chain q p L → e ∈ L → tq_load q (q.tqe_prev e) = some (some e) := by
  intro L
  induction L with
  | nil => intro p e _ he; simp at he
  | cons x xs ih =>
    intro p e hc he
    obtain ⟨h1, h2, h3⟩ := hc
    rcases List.mem_cons.1 he with rfl | he
    · rw [h2]; exact h1
    · exact ih _ e h3 he

theorem TAILQ_INSERT_TAIL_spec (q : tailq) (elm : Nat) (hl : q.tqh_last ≠ .null) :
    ∃ q1, TAILQ_INSERT_TAIL q elm = some q1 ∧ q1.tqh_last = .tqe_next elm ∧
      q1.tqe_prev = upd q.tqe_prev elm q.tqh_last ∧
      ∀ c, tq_load q1 c =
        if c = q.tqh_last then some (some elm)
        else if c = .tqe_next elm then some none else tq_load q c := by
  unfold TAILQ_INSERT_TAIL
  simp only
  obtain ⟨q3, h3⟩ := tq_store_some
    { q with tqe_next := upd q.tqe_next elm none, tqe_prev := upd q.tqe_prev elm q.tqh_last }
    q.tqh_last (some elm) hl
  rw [h3]
  obtain ⟨s1, s2, s3⟩ := tq_store_spec _ _ _ _ h3
  refine ⟨_, rfl, rfl, s2, ?_⟩
  intro c
  rw [show tq_load { q3 with tqh_last := .tqe_next elm } c = tq_load q3 c by cases c <;> rfl]
  rw [s3 c]
  by_cases h1 : c = q.tqh_last
  · simp [h1]
  · simp only [if_neg h1]
    cases c with
    | null => simp [tq_load]
    | tqh_first => simp [tq_load]
    | tqe_next e =>
      by_cases he : e = elm
      · simp [tq_load, upd, he]
      · simp [tq_load, upd, he]

theorem TAILQ_INSERT_BEFORE_spec (q : tailq) (y elm : Nat) (hl : q.tqe_prev y ≠ .null) :
    ∃ q1, TAILQ_INSERT_BEFORE q y elm = some q1 ∧ q1.tqh_last = q.tqh_last ∧
      q1.tqe_prev = upd (upd q.tqe_prev elm (q.tqe_prev y)) y (.tqe_next elm) ∧
      ∀ c, tq_load q1 c =
        if c = q.tqe_prev y then some (some elm)
        else if c = .tqe_next elm then some (some y) else tq_load q c := by
  unfold TAILQ_INSERT_BEFORE
  simp only
  have hy : upd q.tqe_prev elm (q.tqe_prev y) y = q.tqe_prev y := by
    by_cases h : y = elm
    · simp [upd, h]
    · simp [upd, h]
  rw [hy]
  obtain ⟨q3, h3⟩ := tq_store_some
    { q with tqe_prev := upd q.tqe_prev elm (q.tqe_prev y),
             tqe_next := upd q.tqe_next elm (some y) }
    (q.tqe_prev y) (some elm) hl
  rw [h3]
  obtain ⟨s1, s2, s3⟩ := tq_store_spec _ _ _ _ h3
  refine ⟨_, rfl, s1, by simp only [s2], ?_⟩
  intro c
  rw [show tq_load { q3 with tqe_prev := upd q3.tqe_prev y (.tqe_next elm) } c = tq_load q3 c
    by cases c <;> rfl]
  rw [s3 c]
  by_cases h1 : c = q.tqe_prev y
  · simp [h1]
  · simp only [if_neg h1]
    cases c with
    | null => simp [tq_load]
    | tqh_first => simp [tq_load]
    | tqe_next e =>
      by_cases he : e = elm
      · simp [tq_load, upd, he]
      · simp [tq_load, upd, he]

theorem TAILQ_REMOVE_spec (q : tailq) (x : Nat) (hl : q.tqe_prev x ≠ .null) :
    ∃ q1, TAILQ_REMOVE q x = some q1 ∧
      (∀ c, tq_load q1 c = if c = q.tqe_prev x then some (q.tqe_next x) else tq_load q c) ∧
      (∀ n, q.tqe_next x = some n →
        q1.tqh_last = q.tqh_last ∧ q1.tqe_prev = upd q.tqe_prev n (q.tqe_prev x)) ∧
      (q.tqe_next x = none → q1.tqh_last = q.tqe_prev x ∧ q1.tqe_prev = q.tqe_prev) := by
  unfold TAILQ_REMOVE
  cases hn : q.tqe_next x with
  | none =>
    simp only
    obtain ⟨q3, h3⟩ := tq_store_some { q with tqh_last := q.tqe_prev x } (q.tqe_prev x)
      (q.tqe_next x) hl
    rw [h3]
    obtain ⟨s1, s2, s3⟩ := tq_store_spec _ _ _ _ h3
    refine ⟨_, rfl, ?_, by simp, fun _ => ⟨s1, s2⟩⟩
    intro c
    rw [s3 c, hn]
    cases c <;> rfl
  | some n =>
    simp only
    have hy : upd q.tqe_prev n (q.tqe_prev x) x = q.tqe_prev x := by
      by_cases h : x = n
      · simp [upd, h]
      · simp [upd, h]
    rw [hy]
    obtain ⟨q3, h3⟩ := tq_store_some { q with tqe_prev := upd q.tqe_prev n (q.tqe_prev x) }
      (q.tqe_prev x) (q.tqe_next x) hl
    rw [h3]
    obtain ⟨s1, s2, s3⟩ := tq_store_spec _ _ _ _ h3
    refine ⟨_, rfl, ?_, ?_, by simp⟩
    · intro c
      rw [s3 c, hn]
      cases c <;> rfl
    · intro m hm
      simp only [Option.some.injEq] at hm
      subst hm
      exact ⟨s1, s2⟩

theorem TAILQ_INSERT_TAIL_chain_aux (q q1 : tailq) (elm : Nat)
    (hlast : q1.tqh_last = .tqe_next elm)
    (hprev : q1.tqe_prev = upd q.tqe_prev elm q.tqh_last)
    (hload : ∀ c, tq_load q1 c =
        if c = q.tqh_last then some (some elm)
        else if c = .tqe_next elm then some none else tq_load q c)
    (hnil : tq_load q q.tqh_last = some none) :
    ∀ (L : List Nat) (p : tqe_ref), tq_chain q p L → elm ∉ L → p ≠ .tqe_next elm →
      tq_chain q1 p (L ++ [elm]) := by
  intro L
  induction L with
  | nil =>
    intro p hc _ hp
    obtain ⟨_, h2⟩ := hc
    refine ⟨?_, ?_, ?_, hlast⟩
    · rw [hload p, if_pos h2.symm]
    · rw [hprev, upd_same, h2]
    · rw [hload, if_neg (by rw [h2]; exact fun h => hp h.symm), if_pos rfl]
  | cons e es ih =>
    intro p hc helm hp
    obtain ⟨h1, h2, h3⟩ := hc
    have hne : e ≠ elm := fun h => helm (by simp [h])
    have hes : elm ∉ es := fun h => helm (List.mem_cons_of_mem _ h)
    refine ⟨?_, ?_, ih _ h3 hes (by simpa using hne)⟩
    · rw [hload p, if_neg, if_neg hp, h1]
      intro h
      rw [← h, h1] at hnil
      simp at hnil
    · rw [hprev, upd_other _ _ _ _ hne, h2]

/-- `TAILQ_INSERT_TAIL` on a well-formed list appends the entry. -/
theorem TAILQ_INSERT_TAIL_chain (q : tailq) (elm : Nat) (L : List Nat)
    (hc : tq_chain q .tqh_first L) (helm : elm ∉ L) :
    ∃ q1, TAILQ_INSERT_TAIL q elm = some q1 ∧ tq_chain q1 .tqh_first (L ++ [elm]) := by
  have hnil := tq_chain_last q L _ hc
  obtain ⟨q1, h1, h2, h3, h4⟩ := TAILQ_INSERT_TAIL_spec q elm (tq_load_ne_null q _ _ hnil)
  exact ⟨q1, h1, TAILQ_INSERT_TAIL_chain_aux q q1 elm h2 h3 h4 hnil L _ hc helm (by simp)⟩

theorem TAILQ_INSERT_BEFORE_chain_aux (q q1 : tailq) (y elm : Nat) (L2 : List Nat)
    (hlast : q1.tqh_last = q.tqh_last)
    (hprev : q1.tqe_prev = upd (upd q.tqe_prev elm (q.tqe_prev y)) y (.tqe_next elm))
    (hload : ∀ c, tq_load q1 c =
        if c = q.tqe_prev y then some (some elm)
        else if c = .tqe_next elm then some (some y) else tq_load q c)
    (hcell : tq_load q (q.tqe_prev y) = some (some y)) (hye : y ≠ elm) :
    ∀ (L1 : List Nat) (p : tqe_ref), tq_chain q p (L1 ++ y :: L2) → (L1 ++ y :: L2).Nodup →
      elm ∉ L1 ++ y :: L2 → p ≠ .tqe_next elm →
      tq_chain q1 p (L1 ++ elm :: y :: L2) := by
  intro L1
  induction L1 with
  | nil =>
    intro p hc hnd helm hp
    simp only [List.nil_append] at hc hnd helm ⊢
    obtain ⟨h1, h2, h3⟩ := hc
    have hy2 : y ∉ L2 := (List.nodup_cons.1 hnd).1
    have he2 : elm ∉ L2 := fun h => helm (List.mem_cons_of_mem _ h)
    refine ⟨?_, ?_, ?_, ?_, ?_⟩
    · rw [hload p, if_pos h2.symm]
    · rw [hprev, upd_other _ _ _ _ (Ne.symm hye), upd_same, h2]
    · rw [hload, if_neg (by rw [h2]; exact fun h => hp h.symm), if_pos rfl]
    · rw [hprev, upd_same]
    · apply tq_chain_frame q q1 L2 _ h3
      · rw [hload, if_neg, if_neg (by simpa using hye)]
        intro h
        have := tq_chain_head_mem q L2 _ y h3 (by rw [h]; exact hcell)
        exact hy2 this
      · intro e he
        have hey : e ≠ y := fun h => hy2 (h ▸ he)
        have hee : e ≠ elm := fun h => he2 (h ▸ he)
        constructor
        · have := hload (.tqe_next e)
          simp only [tq_load] at this
          rw [if_neg, if_neg (by simpa using hee)] at this
          · simpa using this
          · intro h
            rw [← h] at hcell
            simp only [tq_load, Option.some.injEq] at hcell
            exact hy2 (tq_chain_next_mem q L2 _ e y h3 he hcell)
        · rw [hprev, upd_other _ _ _ _ hey, upd_other _ _ _ _ hee]
      · exact hlast
  | cons e es ih =>
    intro p hc hnd helm hp
    simp only [List.cons_append] at hc hnd helm ⊢
    obtain ⟨h1, h2, h3⟩ := hc
    have hnd2 := (List.nodup_cons.1 hnd).2
    have hey : e ≠ y := by
      intro h
      exact (List.nodup_cons.1 hnd).1 (by simp [h])
    have hee : e ≠ elm := fun h => helm (by simp [h])
    have helm2 : elm ∉ es ++ y :: L2 := fun h => helm (List.mem_cons_of_mem _ h)
    refine ⟨?_, ?_, ih _ h3 hnd2 helm2 (by simpa using hee)⟩
    · rw [hload p, if_neg, if_neg hp, h1]
      intro h
      rw [← h, h1] at hcell
      simp only [Option.some.injEq] at hcell
      exact hey hcell
    · rw [hprev, upd_other _ _ _ _ hey, upd_other _ _ _ _ hee, h2]

/-- `TAILQ_INSERT_BEFORE` on a well-formed list puts the new entry right before
`listelm`. -/
theorem TAILQ_INSERT_BEFORE_chain (q : tailq) (y elm : Nat) (L1 L2 : List Nat)
    (hc : tq_chain q .tqh_first (L1 ++ y :: L2)) (hnd : (L1 ++ y :: L2).Nodup)
    (helm : elm ∉ L1 ++ y :: L2) :
    ∃ q1, TAILQ_INSERT_BEFORE q y elm = some q1 ∧
      tq_chain q1 .tqh_first (L1 ++ elm :: y :: L2) := by
  have hcell := tq_chain_prev q _ _ y hc (by simp)
  have hye : y ≠ elm := fun h => helm (by simp [h])
  obtain ⟨q1, h1, h2, h3, h4⟩ := TAILQ_INSERT_BEFORE_spec q y elm (tq_load_ne_null q _ _ hcell)
  exact ⟨q1, h1,
    TAILQ_INSERT_BEFORE_chain_aux q q1 y elm L2 h2 h3 h4 hcell hye L1 _ hc hnd helm (by simp)⟩

theorem tq_chain_suffix (q : tailq) (x : Nat) (L2 : List Nat) :
    ∀ (L1 : List Nat) (p : tqe_ref), tq_chain q p (L1 ++ x :: L2) →
      tq_chain q (.tqe_next x) L2 := by
  intro L1
  induction L1 with
  | nil => intro p hc; exact hc.2.2
  | cons e es ih => intro p hc; exact ih _ hc.2.2

theorem tq_chain_next_head (q : tailq) (L : List Nat) (x : Nat)
    (hc : tq_chain q (.tqe_next x) L) : q.tqe_next x = L.head? := by
  cases L with
  | nil => simpa [tq_load] using hc.1
  | cons e es => simpa [tq_load] using hc.1

theorem TAILQ_REMOVE_chain_aux_last (q q1 : tailq) (x : Nat)
    (hload : ∀ c, tq_load q1 c = if c = q.tqe_prev x then some none else tq_load q c)
    (hlast : q1.tqh_last = q.tqe_prev x) (hprev : q1.tqe_prev = q.tqe_prev)
    (hcell : tq_load q (q.tqe_prev x) = some (some x)) :
    ∀ (L1 : List Nat) (p : tqe_ref), tq_chain q p (L1 ++ [x]) → (L1 ++ [x]).Nodup →
      tq_chain q1 p L1 := by
  intro L1
  induction L1 with
  | nil =>
    intro p hc _
    obtain ⟨_, h2, _⟩ := hc
    exact ⟨by rw [hload p, if_pos h2.symm], by rw [hlast, h2]⟩
  | cons e es ih =>
    intro p hc hnd
    simp only [List.cons_append] at hc hnd
    obtain ⟨h1, h2, h3⟩ := hc
    have hex : e ≠ x := by
      intro h
      exact (List.nodup_cons.1 hnd).1 (by simp [h])
    refine ⟨?_, by rw [hprev, h2], ih _ h3 (List.nodup_cons.1 hnd).2⟩
    rw [hload p, if_neg, h1]
    intro h
    rw [← h, h1] at hcell
    simp only [Option.some.injEq] at hcell
    exact hex hcell

theorem TAILQ_REMOVE_chain_aux_mid (q q1 : tailq) (x n : Nat) (L2 : List Nat)
    (hload : ∀ c, tq_load q1 c = if c = q.tqe_prev x then some (some n) else tq_load q c)
    (hlast : q1.tqh_last = q.tqh_last)
    (hprev : q1.tqe_prev = upd q.tqe_prev n (q.tqe_prev x))
    (hcell : tq_load q (q.tqe_prev x) = some (some x)) :
    ∀ (L1 : List Nat) (p : tqe_ref), tq_chain q p (L1 ++ x :: n :: L2) →
      (L1 ++ x :: n :: L2).Nodup → tq_chain q1 p (L1 ++ n :: L2) := by
  intro L1
  induction L1 with
  | nil =>
    intro p hc hnd
    simp only [List.nil_append] at hc hnd ⊢
    obtain ⟨_, h2, _, _, h5⟩ := hc
    have hx : x ∉ n :: L2 := (List.nodup_cons.1 hnd).1
    have hn : n ∉ L2 := (List.nodup_cons.1 (List.nodup_cons.1 hnd).2).1
    have hx2 : x ∉ L2 := fun h => hx (List.mem_cons_of_mem _ h)
    refine ⟨by rw [hload p, if_pos h2.symm], by rw [hprev, upd_same, h2], ?_⟩
    apply tq_chain_frame q q1 L2 _ h5
    · rw [hload, if_neg]
      intro h
      exact hx2 (tq_chain_head_mem q L2 _ x h5 (by rw [h]; exact hcell))
    · intro e he
      have hen : e ≠ n := fun h => hn (h ▸ he)
      constructor
      · have := hload (.tqe_next e)
        simp only [tq_load] at this
        rw [if_neg] at this
        · simpa using this
        · intro h
          rw [← h] at hcell
          simp only [tq_load, Option.some.injEq] at hcell
          exact hx2 (tq_chain_next_mem q L2 _ e x h5 he hcell)
      · rw [hprev, upd_other _ _ _ _ hen]
    · exact hlast
  | cons e es ih =>
    intro p hc hnd
    simp only [List.cons_append] at hc hnd ⊢
    obtain ⟨h1, h2, h3⟩ := hc
    have hnot := (List.nodup_cons.1 hnd).1
    have hex : e ≠ x := fun h => hnot (by simp [h])
    have hen : e ≠ n := fun h => hnot (by simp [h])
    refine ⟨?_, by rw [hprev, upd_other _ _ _ _ hen, h2], ih _ h3 (List.nodup_cons.1 hnd).2⟩
    rw [hload p, if_neg, h1]
    intro h
    rw [← h, h1] at hcell
    simp only [Option.some.injEq] at hcell
    exact hex hcell

/-- `TAILQ_REMOVE` on a well-formed list takes the entry out of the list. -/
theorem TAILQ_REMOVE_chain (q : tailq) (x : Nat) (L1 L2 : List Nat)
    (hc : tq_chain q .tqh_first (L1 ++ x :: L2)) (hnd : (L1 ++ x :: L2).Nodup) :
    ∃ q1, TAILQ_REMOVE q x = some q1 ∧ tq_chain q1 .tqh_first (L1 ++ L2) := by
  have hcell := tq_chain_prev q _ _ x hc (by simp)
  have hnext := tq_chain_next_head q L2 x (tq_chain_suffix q x L2 L1 _ hc)
  obtain ⟨q1, h1, h2, h3, h4⟩ := TAILQ_REMOVE_spec q x (tq_load_ne_null q _ _ hcell)
  refine ⟨q1, h1, ?_⟩
  cases L2 with
  | nil =>
    simp only [List.head?_nil] at hnext
    obtain ⟨h5, h6⟩ := h4 hnext
    rw [hnext] at h2
    simpa using TAILQ_REMOVE_chain_aux_last q q1 x h2 h5 h6 hcell L1 _ hc hnd
  | cons n L2 =>
    simp only [List.head?_cons] at hnext
    obtain ⟨h5, h6⟩ := h3 n hnext
    rw [hnext] at h2
    exact TAILQ_REMOVE_chain_aux_mid q q1 x n L2 h2 h5 h6 hcell L1 _ hc hnd

/-! ## Removing an entry -/

theorem vm_map_remove_entry_eq (s : kstate) (e : Nat) (q1 : tailq)
    (h : TAILQ_REMOVE s.list e = some q1) :
    vm_map_remove_entry s e =
      some { s with
        nentries := (s.nentries + 2 ^ 32 - 1) % 2 ^ 32,
        object_free_log := s.object_free_log ++ [s.object e],
        list := q1,
        kfree_log := s.kfree_log ++ [kobj.entry e] } := by
  unfold vm_map_remove_entry
  simp only [h]

/-- C2: in a map whose list holds the entries `L` without overlap and whose
`nentries` counts them, `vm_map_remove_entry(map, e)` for an entry `e` of the
map returns, leaves `nentries` exactly one less, leaves the list without `e`,
and afterwards `vm_map_find_entry` returns `NULL` for every address of the
range of `e`. -/
theorem vm_map_remove_entry_spec (s : kstate) (L : List Nat) (e : Nat)
    (hL : vm_map_list s L) (hd : vm_map_disjoint s L) (he : e ∈ L)
    (hn : s.nentries = L.length) (h32 : L.length < 2 ^ 32) :
    ∃ s1, vm_map_remove_entry s e = some s1 ∧ s1.nentries + 1 = s.nentries ∧
      vm_map_list s1 (L.erase e) ∧
      ∀ a, vm_map_entry_covers s a e → ∀ fuel, L.length ≤ fuel →
        vm_map_find_entry s1 a fuel = some none := by
  obtain ⟨L1, L2, rfl⟩ := List.append_of_mem he
  obtain ⟨hnd, hc⟩ := hL
  obtain ⟨q1, hq, hc1⟩ := TAILQ_REMOVE_chain s.list e L1 L2 hc hnd
  have he1 : e ∉ L1 := by
    intro h
    have := List.nodup_append.1 hnd
    exact this.2.2 h (List.mem_cons_self _ _)
  have he2 : e ∉ L2 := by
    have := (List.nodup_append.1 hnd).2.1
    exact (List.nodup_cons.1 this).1
  have herase : (L1 ++ e :: L2).erase e = L1 ++ L2 := by
    rw [List.erase_append_right _ he1, List.erase_cons_head]
  have hnd1 : (L1 ++ L2).Nodup := by
    rw [← herase]
    exact hnd.erase e
  have hlen : 0 < (L1 ++ e :: L2).length := by simp
  refine ⟨_, vm_map_remove_entry_eq s e q1 hq, ?_, ?_, ?_⟩
  · simp only [hn]
    omega
  · rw [herase]
    exact ⟨hnd1, hc1⟩
  · intro a ha fuel hf
    have hlist : vm_map_list
        { s with
          nentries := (s.nentries + 2 ^ 32 - 1) % 2 ^ 32,
          object_free_log := s.object_free_log ++ [s.object e],
          list := q1,
          kfree_log := s.kfree_log ++ [kobj.entry e] } (L1 ++ L2) := ⟨hnd1, hc1⟩
    rw [vm_map_find_entry_list _ (L1 ++ L2) a fuel hlist (by simp at hf ⊢; omega)]
    rw [find_covers_none]
    intro x hx hcov
    have hxL : x ∈ L1 ++ e :: L2 := by
      simp only [List.mem_append, List.mem_cons] at hx ⊢
      tauto
    have hxe : x ≠ e := by
      intro h
      rw [h] at hx
      rcases List.mem_append.1 hx with h1 | h2
      · exact he1 h1
      · exact he2 h2
    exact hd x hxL e he hxe a ⟨hcov, ha⟩

/-- C2, on the map with the entries `[0x1000, 0x2000)` and `[0x2000, 0x4000)`:
removing the second one. -/
theorem vm_map_remove_entry_spec_witness :
    ∃ s1, vm_map_remove_entry
        (vm_map_scenario 0x1000 0x9000 [(0x2000, 0x4000, 3), (0x1000, 0x2000, 1)]) 0 = some s1 ∧
      s1.nentries + 1 =
        (vm_map_scenario 0x1000 0x9000 [(0x2000, 0x4000, 3), (0x1000, 0x2000, 1)]).nentries ∧
      vm_map_list s1 ([1, 0].erase 0) ∧
      ∀ a, vm_map_entry_covers
          (vm_map_scenario 0x1000 0x9000 [(0x2000, 0x4000, 3), (0x1000, 0x2000, 1)]) a 0 →
        ∀ fuel, [1, 0].length ≤ fuel → vm_map_find_entry s1 a fuel = some none :=
  vm_map_remove_entry_spec _ [1, 0] 0 ⟨by decide, by decide!⟩
    (by
      intro x hx y hy hxy a
      simp only [List.mem_cons, List.mem_singleton, List.not_mem_nil, or_false] at hx hy
      have h0 : (vm_map_scenario 0x1000 0x9000 [(0x2000, 0x4000, 3), (0x1000, 0x2000, 1)]).start 0
          = 0x2000 := by decide!
      have h1 : (vm_map_scenario 0x1000 0x9000 [(0x2000, 0x4000, 3), (0x1000, 0x2000, 1)]).end_ 1
          = 0x2000 := by decide!
      rcases hx with rfl | rfl <;> rcases hy with rfl | rfl
      · exact absurd rfl hxy
      · unfold vm_map_entry_covers; omega
      · unfold vm_map_entry_covers; omega
      · exact absurd rfl hxy)
    (by decide) (by decide!) (by decide)

/-! ## Adding entries -/

theorem upd_upd {α : Type} (f : Nat → α) (e : Nat) (v w : α) :
    upd (upd f e v) e w = upd f e w := by
  funext i
  by_cases h : i = e
  · simp [upd, h]
  · simp [upd, h]

/-- `vm_map_insert_entry` on a map whose tree holds only entries of its list:
an entry that is new and whose start differs from the starts in the list is
inserted into the tree and linked into the list. -/
theorem vm_map_insert_entry_spec (s : kstate) (L : List Nat) (entry : Nat)
    (hL : vm_map_list s L) (ht : ∀ x ∈ s.tree.toList, x ∈ L) (hnew : entry ∉ L)
    (hstart : ∀ x ∈ L, s.start x ≠ s.start entry) (h32 : s.start entry < VM_ADDR_MOD) :
    ∃ t1 q1 L1 L2, L = L1 ++ L2 ∧
      vm_map_insert_entry s entry =
        some ({ s with tree := t1, list := q1, nentries := (s.nentries + 1) % 2 ^ 32 }, true) ∧
      tq_chain q1 .tqh_first (L1 ++ entry :: L2) ∧
      (∀ x, x ∈ t1.toList ↔ x = entry ∨ x ∈ s.tree.toList) := by
  rcases vm_map_tree_SPLAY_INSERT_spec s s.tree entry with
    ⟨A, B, hins, hB, hmem⟩ | ⟨t1, x, _, hx, hcmp, _⟩
  · unfold vm_map_insert_entry
    rw [hins]
    simp only [vm_map_tree_SPLAY_NEXT_root]
    cases hnext : B.leftmost with
    | none =>
      obtain ⟨q1, hq, hc⟩ := TAILQ_INSERT_TAIL_chain s.list entry L hL.2 hnew
      refine ⟨.node A entry B, q1, L, [], by simp, ?_, hc, hmem⟩
      simp only [hq]
    | some n =>
      have hn : n ∈ L := ht n (hB n (vm_map_tree.leftmost_mem B n hnext))
      obtain ⟨L1, L2, rfl⟩ := List.append_of_mem hn
      obtain ⟨q1, hq, hc⟩ := TAILQ_INSERT_BEFORE_chain s.list n entry L1 L2 hL.2 hL.1 hnew
      refine ⟨.node A entry B, q1, L1, n :: L2, rfl, ?_, hc, hmem⟩
      simp only [hq]
  · exfalso
    exact hstart x (ht x hx) (vm_map_entry_cmp_eq_zero s entry x h32 hcmp).symm

theorem vm_map_inv_new (lo hi : Nat) : vm_map_inv (vm_map_new lo hi) [] := by
  refine ⟨⟨List.nodup_nil, ?_⟩, ?_, ?_, ?_⟩
  · exact ⟨rfl, rfl⟩
  · intro x hx
    simp [vm_map_new, vm_map_setup, vm_map_tree.toList] at hx
  · intro x hx
    simp at hx
  · rfl

/-- One call of `vm_map_add_entry` with an acceptable range whose start is not
the start of an entry of the map: the call returns the block `kmalloc` hands
out, the entry is linked into the list, its fields are set, and nothing else
changes. -/
theorem vm_map_add_entry_spec (s : kstate) (L : List Nat) (a b p : Nat)
    (hinv : vm_map_inv s L) (hok : vm_range_ok s.pmap_start s.pmap_end (a, b, p))
    (h32 : a < VM_ADDR_MOD) (hstart : ∀ x ∈ L, s.start x ≠ a) :
    ∃ s1 L1 L2, L = L1 ++ L2 ∧ vm_map_add_entry s a b p = some (s1, s.brk) ∧
      vm_map_inv s1 (L1 ++ s.brk :: L2) ∧ s1.brk = s.brk + 1 ∧
      s1.start = upd s.start s.brk a ∧ s1.end_ = upd s.end_ s.brk b ∧
      s1.prot = upd s.prot s.brk p ∧ s1.object = upd s.object s.brk none ∧
      s1.pmap_start = s.pmap_start ∧ s1.pmap_end = s.pmap_end ∧
      s1.object_free_log = s.object_free_log ∧ s1.kfree_log = s.kfree_log := by
  obtain ⟨hL, ht, hbrk, hn⟩ := hinv
  obtain ⟨h1, _, h3, h4, h5⟩ := hok
  simp only at h1 h3 h4 h5
  have hnew : s.brk ∉ L := fun h => Nat.lt_irrefl _ (hbrk _ h)
  -- the state handed to `vm_map_insert_entry`
  let s4 : kstate :=
    { s with
      start := upd s.start s.brk a, end_ := upd s.end_ s.brk b, prot := upd s.prot s.brk p,
      object := upd s.object s.brk none,
      list := { s.list with tqe_next := upd s.list.tqe_next s.brk none,
                            tqe_prev := upd s.list.tqe_prev s.brk .null },
      brk := s.brk + 1 }
  have hL4 : vm_map_list s4 L := by
    refine ⟨hL.1, tq_chain_frame s.list _ L _ hL.2 rfl ?_ rfl⟩
    intro e he
    have : e ≠ s.brk := fun h => hnew (h ▸ he)
    exact ⟨upd_other _ _ _ _ this, upd_other _ _ _ _ this⟩
  have hs4 : s4.start s.brk = a := upd_same _ _ _
  obtain ⟨t1, q1, L1, L2, hsplit, hins, hc, hmem⟩ :=
    vm_map_insert_entry_spec s4 L s.brk hL4 ht hnew
      (by
        intro x hx
        rw [hs4]
        have : x ≠ s.brk := fun h => hnew (h ▸ hx)
        show upd s.start s.brk a x ≠ a
        rw [upd_other _ _ _ _ this]
        exact hstart x hx)
      (by rw [hs4]; exact h32)
  have hadd : vm_map_add_entry s a b p =
      some ({ s4 with tree := t1, list := q1, nentries := (s4.nentries + 1) % 2 ^ 32 }, s.brk) := by
    unfold vm_map_add_entry kmalloc_entry
    simp only [ge_iff_le, h1, h3, h4, h5, not_true_eq_false, if_false, upd_upd]
    have : vm_map_insert_entry s4 s.brk = _ := hins
    simp only [s4] at this
    rw [this]
  refine ⟨_, L1, L2, hsplit, hadd, ⟨⟨?_, hc⟩, ?_, ?_, ?_⟩, rfl, rfl, rfl, rfl, rfl, rfl, rfl, rfl, rfl⟩
  · have hnd := hL.1
    rw [hsplit] at hnd hnew
    have := List.nodup_append.1 hnd
    rw [List.nodup_append]
    refine ⟨this.1, List.nodup_cons.2 ⟨fun h => hnew (List.mem_append_right _ h), this.2.1⟩, ?_⟩
    intro x hx1 hx2
    rcases List.mem_cons.1 hx2 with rfl | hx2
    · exact hnew (List.mem_append_left _ hx1)
    · exact this.2.2 hx1 hx2
  · intro x hx
    rcases (hmem x).1 hx with rfl | hx
    · simp
    · have := ht x hx
      rw [hsplit] at this
      simp only [List.mem_append, List.mem_cons] at this ⊢
      tauto
  · intro x hx
    show x < s.brk + 1
    simp only [List.mem_append, List.mem_cons] at hx
    rcases hx with h | rfl | h
    · exact Nat.lt_succ_of_lt (hbrk x (by rw [hsplit]; exact List.mem_append_left _ h))
    · exact Nat.lt_succ_self _
    · exact Nat.lt_succ_of_lt (hbrk x (by rw [hsplit]; exact List.mem_append_right _ h))
  · show (s.nentries + 1) % 2 ^ 32 = (L1 ++ s.brk :: L2).length % 2 ^ 32
    rw [hn, hsplit]
    simp only [List.length_append, List.length_cons]
    omega

/-- A sequence of `vm_map_add_entry` calls with acceptable ranges of pairwise
different starts, none the start of an entry of the map: every call returns,
the entries returned carry the ranges handed in, and the list of the map holds
them together with the entries it held before. -/
theorem vm_map_add_entries_spec (rs : List (Nat × Nat × Nat)) :
    ∀ (s : kstate) (L : List Nat), vm_map_inv s L → s.pmap_end < VM_ADDR_MOD →
      (∀ r ∈ rs, vm_range_ok s.pmap_start s.pmap_end r) →
      rs.Pairwise (fun r1 r2 => r1.1 ≠ r2.1) →
      (∀ x ∈ L, ∀ r ∈ rs, s.start x ≠ r.1) →
      ∃ s1 es L1, vm_map_add_entries s rs = some (s1, es) ∧ vm_map_inv s1 L1 ∧
        L1.Perm (es ++ L) ∧
        es.map (fun e => (s1.start e, s1.end_ e, s1.prot e)) = rs ∧
        (∀ e ∈ es, s.brk ≤ e ∧ s1.object e = none) ∧
        (∀ x, x < s.brk → s1.start x = s.start x ∧ s1.end_ x = s.end_ x ∧
          s1.prot x = s.prot x ∧ s1.object x = s.object x) ∧
        s.brk ≤ s1.brk ∧ s1.pmap_start = s.pmap_start ∧ s1.pmap_end = s.pmap_end ∧
        s1.object_free_log = s.object_free_log ∧ s1.kfree_log = s.kfree_log := by
  induction rs with
  | nil =>
    intro s L hinv _ _ _ _
    exact ⟨s, [], L, rfl, hinv, by simp, rfl, by simp, fun _ _ => ⟨rfl, rfl, rfl, rfl⟩,
      le_refl _, rfl, rfl, rfl, rfl⟩
  | cons r rs ih =>
    intro s L hinv hhi hok hpw hstart
    obtain ⟨a, b, p⟩ := r
    have hr := hok (a, b, p) (List.mem_cons_self _ _)
    have ha32 : a < VM_ADDR_MOD := by
      obtain ⟨_, h2, h3, _⟩ := hr
      simp only at h2 h3
      omega
    obtain ⟨s1, La, Lb, hsplit, hadd, hinv1, hbrk1, hst1, hen1, hpr1, hob1, hps1, hpe1, hof1, hkf1⟩ :=
      vm_map_add_entry_spec s L a b p hinv hr ha32
        (fun x hx => hstart x hx (a, b, p) (List.mem_cons_self _ _))
    have hbrkL : ∀ x ∈ L, x < s.brk := hinv.2.2.1
    obtain ⟨s2, es, L2, hadds, hinv2, hperm, hmap, hes, hold, hbrk2, hps2, hpe2, hof2, hkf2⟩ :=
      ih s1 (La ++ s.brk :: Lb) hinv1 (by rw [hpe1]; exact hhi)
        (by
          intro r hr
          rw [hps1, hpe1]
          exact hok r (List.mem_cons_of_mem _ hr))
        (List.pairwise_cons.1 hpw).2
        (by
          intro x hx r hr
          rw [hst1]
          simp only [List.mem_append, List.mem_cons] at hx
          have hxL : x = s.brk ∨ x ∈ L := by
            rw [hsplit]
            simp only [List.mem_append]
            tauto
          rcases hxL with rfl | hxL
          · rw [upd_same]
            exact (List.pairwise_cons.1 hpw).1 r hr
          · rw [upd_other _ _ _ _ (Nat.ne_of_lt (hbrkL x hxL))]
            exact hstart x hxL r (List.mem_cons_of_mem _ hr))
    have hlt : s.brk < s1.brk := by rw [hbrk1]; exact Nat.lt_succ_self _
    obtain ⟨k1, k2, k3, k4⟩ := hold s.brk hlt
    refine ⟨s2, s.brk :: es, L2, ?_, hinv2, ?_, ?_, ?_, ?_, ?_, ?_, ?_, ?_, ?_⟩
    · simp only [vm_map_add_entries, hadd, hadds]
    · refine hperm.trans ?_
      rw [hsplit]
      have h1 : (es ++ (La ++ s.brk :: Lb)).Perm (es ++ (s.brk :: (La ++ Lb))) :=
        List.Perm.append_left es List.perm_middle
      have h2 : (es ++ (s.brk :: (La ++ Lb))).Perm (s.brk :: (es ++ (La ++ Lb))) :=
        List.perm_middle
      simpa using h1.trans h2
    · simp only [List.map_cons, hmap, k1, k2, k3, hst1, hen1, hpr1, upd_same]
    · intro e he
      rcases List.mem_cons.1 he with rfl | he
      · exact ⟨le_refl _, by rw [k4, hob1, upd_same]⟩
      · exact ⟨le_trans (Nat.le_of_lt hlt) (hes e he).1, (hes e he).2⟩
    · intro x hx
      obtain ⟨j1, j2, j3, j4⟩ := hold x (lt_trans hx hlt)
      have hne : x ≠ s.brk := Nat.ne_of_lt hx
      refine ⟨?_, ?_, ?_, ?_⟩
      · rw [j1, hst1, upd_other _ _ _ _ hne]
      · rw [j2, hen1, upd_other _ _ _ _ hne]
      · rw [j3, hpr1, upd_other _ _ _ _ hne]
      · rw [j4, hob1, upd_other _ _ _ _ hne]
    · exact le_trans (Nat.le_of_lt hlt) hbrk2
    · rw [hps2, hps1]
    · rw [hpe2, hpe1]
    · rw [hof2, hof1]
    · rw [hkf2, hkf1]

theorem nodup_length_le (l : List Nat) (n : Nat) (hnd : l.Nodup) (hb : ∀ x ∈ l, x < n) :
    l.length ≤ n := by
  have h1 : l.toFinset ⊆ Finset.range n := by
    intro x hx
    exact Finset.mem_range.2 (hb x (List.mem_toFinset.1 hx))
  have h2 := Finset.card_le_card h1
  rw [List.toFinset_card_of_nodup hnd, Finset.card_range] at h2
  exact h2

theorem vm_range_disjoint_symm (r1 r2 : Nat × Nat × Nat) (h : vm_range_disjoint r1 r2) :
    vm_range_disjoint r2 r1 := by
  unfold vm_range_disjoint at h ⊢
  omega

/-- What a sequence of `vm_map_add_entry` calls on a new map leaves, for
acceptable ranges without overlap. -/
theorem vm_map_add_entries_new (lo hi : Nat) (rs : List (Nat × Nat × Nat))
    (hhi : hi < VM_ADDR_MOD) (hok : ∀ r ∈ rs, vm_range_ok lo hi r)
    (hdis : rs.Pairwise vm_range_disjoint) :
    ∃ s es L, vm_map_add_entries (vm_map_new lo hi) rs = some (s, es) ∧ vm_map_inv s L ∧
      L.Perm es ∧ es.map (fun e => (s.start e, s.end_ e, s.prot e)) = rs ∧
      vm_map_disjoint s L ∧ (∀ e ∈ es, s.object e = none) ∧
      s.object_free_log = [] ∧ s.kfree_log = [] ∧ s.nentries = L.length ∧ L.length < 2 ^ 32 := by
  have hpw : rs.Pairwise (fun r1 r2 => r1.1 ≠ r2.1) := by
    refine (hdis.imp_of_mem ?_)
    intro r1 r2 h1 h2 hd
    have o1 := hok r1 h1
    have o2 := hok r2 h2
    unfold vm_range_ok at o1 o2
    unfold vm_range_disjoint at hd
    omega
  obtain ⟨s, es, L, hadd, hinv, hperm, hmap, hes, _, _, _, _, hof, hkf⟩ :=
    vm_map_add_entries_spec rs (vm_map_new lo hi) [] (vm_map_inv_new lo hi) hhi hok hpw
      (by intro x hx; simp at hx)
  simp only [List.append_nil] at hperm
  have hlen : L.length < 2 ^ 32 := by
    have h1 : L.length = (rs.map Prod.fst).length := by
      rw [hperm.length_eq, ← hmap, List.length_map, List.length_map]
    have h2 : (rs.map Prod.fst).Nodup := List.pairwise_map.2 hpw
    have h3 : ∀ x ∈ rs.map Prod.fst, x < 2 ^ 32 - 1 := by
      intro x hx
      obtain ⟨r, hr, rfl⟩ := List.mem_map.1 hx
      have o := hok r hr
      unfold vm_range_ok at o
      unfold VM_ADDR_MOD at hhi
      omega
    have := nodup_length_le _ _ h2 h3
    omega
  have hcount : s.nentries = L.length := by
    rw [hinv.2.2.2]
    exact Nat.mod_eq_of_lt hlen
  refine ⟨s, es, L, hadd, hinv, hperm, hmap, ?_, fun e he => (hes e he).2, hof, hkf, hcount, hlen⟩
  have hpes : es.Pairwise (fun x y =>
      vm_range_disjoint (s.start x, s.end_ x, s.prot x) (s.start y, s.end_ y, s.prot y)) := by
    have := hdis
    rw [← hmap, List.pairwise_map] at this
    exact this
  intro x hx y hy hxy a hcov
  have := hpes.forall (fun u v h => vm_range_disjoint_symm _ _ h)
    (hperm.mem_iff.1 hx) (hperm.mem_iff.1 hy) hxy
  unfold vm_range_disjoint at this
  unfold vm_map_entry_covers at hcov
  simp only at this
  omega

/-- C1: on a new map with bounds `[lo, hi)`, a sequence of `vm_map_add_entry`
calls with ranges that are non-empty, page-aligned, inside the bounds and
pairwise without overlap returns an entry for every call, different entries for
different calls, carrying the ranges handed in; afterwards
`vm_map_find_entry(map, a)` returns the entry `e` for every address `a` with
`e.start <= a < e.end`, and `NULL` for every address in none of the ranges. -/
theorem vm_map_find_entry_added (lo hi : Nat) (rs : List (Nat × Nat × Nat))
    (hhi : hi < VM_ADDR_MOD) (hok : ∀ r ∈ rs, vm_range_ok lo hi r)
    (hdis : rs.Pairwise vm_range_disjoint) :
    ∃ s es, vm_map_add_entries (vm_map_new lo hi) rs = some (s, es) ∧ es.Nodup ∧
      es.map (fun e => (s.start e, s.end_ e, s.prot e)) = rs ∧
      (∀ e ∈ es, ∀ a, vm_map_entry_covers s a e → ∀ fuel, rs.length ≤ fuel →
        vm_map_find_entry s a fuel = some (some e)) ∧
      (∀ a, (∀ r ∈ rs, ¬ (r.1 ≤ a ∧ a < r.2.1)) → ∀ fuel, rs.length ≤ fuel →
        vm_map_find_entry s a fuel = some none) := by
  obtain ⟨s, es, L, hadd, hinv, hperm, hmap, hd, _, _, _, _, _⟩ :=
    vm_map_add_entries_new lo hi rs hhi hok hdis
  have hlen : L.length = rs.length := by
    rw [hperm.length_eq, ← hmap, List.length_map]
  refine ⟨s, es, hadd, hperm.nodup_iff.1 hinv.1.1, hmap, ?_, ?_⟩
  · intro e he a hcov fuel hf
    rw [vm_map_find_entry_list s L a fuel hinv.1 (by omega),
      find_covers_of_disjoint s L a e hd (hperm.mem_iff.2 he) hcov]
  · intro a hno fuel hf
    rw [vm_map_find_entry_list s L a fuel hinv.1 (by omega), find_covers_none]
    intro x hx hcov
    have hxes : x ∈ es := hperm.mem_iff.1 hx
    have : (s.start x, s.end_ x, s.prot x) ∈ rs := by
      rw [← hmap]
      exact List.mem_map_of_mem _ hxes
    exact hno _ this hcov

/-- C1, on the map with bounds `[0x1000, 0x9000)` and the three calls for
`[0x2000, 0x4000)`, `[0x1000, 0x2000)` and `[0x5000, 0x6000)`. -/
theorem vm_map_find_entry_added_witness :
    ∃ s es, vm_map_add_entries (vm_map_new 0x1000 0x9000)
        [(0x2000, 0x4000, 3), (0x1000, 0x2000, 1), (0x5000, 0x6000, 2)] = some (s, es) ∧
      es.Nodup ∧
      es.map (fun e => (s.start e, s.end_ e, s.prot e))
        = [(0x2000, 0x4000, 3), (0x1000, 0x2000, 1), (0x5000, 0x6000, 2)] ∧
      (∀ e ∈ es, ∀ a, vm_map_entry_covers s a e → ∀ fuel,
        [(0x2000, 0x4000, 3), (0x1000, 0x2000, 1), (0x5000, 0x6000, 2)].length ≤ fuel →
        vm_map_find_entry s a fuel = some (some e)) ∧
      (∀ a, (∀ r ∈ [(0x2000, 0x4000, 3), (0x1000, 0x2000, 1), (0x5000, 0x6000, 2)],
          ¬ (r.1 ≤ a ∧ a < r.2.1)) → ∀ fuel,
        [(0x2000, 0x4000, 3), (0x1000, 0x2000, 1), (0x5000, 0x6000, 2)].length ≤ fuel →
        vm_map_find_entry s a fuel = some none) :=
  vm_map_find_entry_added 0x1000 0x9000
    [(0x2000, 0x4000, 3), (0x1000, 0x2000, 1), (0x5000, 0x6000, 2)]
    (by decide) (by decide) (by decide)

/-! ## Deleting a map -/

/-- `vm_map_delete` on a map whose list is well-formed and counted by
`nentries`: the loop ends, having removed the entries first to last. -/
theorem vm_map_delete_list (L : List Nat) :
    ∀ (s : kstate) (fuel : Nat), vm_map_list s L → s.nentries = L.length →
      L.length < 2 ^ 32 → L.length ≤ fuel →
      ∃ s1, vm_map_delete s fuel = some s1 ∧ s1.list.tqh_first = none ∧ s1.nentries = 0 ∧
        s1.object_free_log = s.object_free_log ++ L.map s.object ∧
        s1.kfree_log = s.kfree_log ++ L.map kobj.entry ++ [kobj.map] := by
  induction L with
  | nil =>
    intro s fuel hL hn _ _
    have h0 : ¬ s.nentries > 0 := by simp [hn]
    have hf : s.list.tqh_first = none := by simpa [tq_load] using hL.2.1
    refine ⟨{ s with kfree_log := s.kfree_log ++ [kobj.map] }, ?_, hf, by simpa using hn,
      by simp, by simp⟩
    cases fuel with
    | zero => simp only [vm_map_delete, if_neg h0]
    | succ f => simp only [vm_map_delete, if_neg h0]
  | cons e es ih =>
    intro s fuel hL hn h32 hf
    cases fuel with
    | zero => simp at hf
    | succ f =>
      have h0 : s.nentries > 0 := by simp [hn]
      have hfirst : s.list.tqh_first = some e := by simpa [tq_load] using hL.2.1
      obtain ⟨q1, hq, hc⟩ := TAILQ_REMOVE_chain s.list e [] es hL.2 hL.1
      have hrem := vm_map_remove_entry_eq s e q1 hq
      simp only [List.length_cons] at hn h32 hf
      obtain ⟨s1, hdel, h1, h2, h3, h4⟩ :=
        ih { s with
              nentries := (s.nentries + 2 ^ 32 - 1) % 2 ^ 32,
              object_free_log := s.object_free_log ++ [s.object e],
              list := q1,
              kfree_log := s.kfree_log ++ [kobj.entry e] } f
          ⟨(List.nodup_cons.1 hL.1).2, hc⟩ (by simp only [hn]; omega) (by omega) (by omega)
      refine ⟨s1, ?_, h1, h2, ?_, ?_⟩
      · simp only [vm_map_delete, if_pos h0, hfirst, hrem, hdel]
      · rw [h3]
        simp
      · rw [h4]
        simp

/-- C5: for a map built by `vm_map_add_entry` calls (ranges non-empty,
page-aligned, inside the bounds, pairwise without overlap) and whatever objects
`object` the entries carry by then, `vm_map_delete(map)` returns; the list of
the map is empty afterwards; `vm_object_free` was called once per entry, on
the object of that entry, in the order of the list, which holds every entry
added exactly once; the entries were given to `kfree` in that order, and the
map itself last. -/
theorem vm_map_delete_spec (lo hi : Nat) (rs : List (Nat × Nat × Nat)) (object : Nat → Option Nat)
    (hhi : hi < VM_ADDR_MOD) (hok : ∀ r ∈ rs, vm_range_ok lo hi r)
    (hdis : rs.Pairwise vm_range_disjoint) :
    ∃ s es L, vm_map_add_entries (vm_map_new lo hi) rs = some (s, es) ∧
      vm_map_list s L ∧ L.Perm es ∧ es.length = rs.length ∧
      ∀ fuel, rs.length ≤ fuel →
        ∃ s1, vm_map_delete { s with object := object } fuel = some s1 ∧
          s1.list.tqh_first = none ∧ s1.nentries = 0 ∧
          s1.object_free_log = L.map object ∧
          s1.kfree_log = L.map kobj.entry ++ [kobj.map] := by
  obtain ⟨s, es, L, hadd, hinv, hperm, hmap, _, _, hof, hkf, hn, h32⟩ :=
    vm_map_add_entries_new lo hi rs hhi hok hdis
  have hlen : es.length = rs.length := by rw [← hmap, List.length_map]
  refine ⟨s, es, L, hadd, hinv.1, hperm, hlen, ?_⟩
  intro fuel hf
  obtain ⟨s1, h1, h2, h3, h4, h5⟩ :=
    vm_map_delete_list L { s with object := object } fuel ⟨hinv.1.1, hinv.1.2⟩ hn h32
      (by rw [hperm.length_eq, hlen]; exact hf)
  refine ⟨s1, h1, h2, h3, ?_, ?_⟩
  · rw [h4]
    show s.object_free_log ++ L.map object = L.map object
    rw [hof, List.nil_append]
  · rw [h5]
    show s.kfree_log ++ L.map kobj.entry ++ [kobj.map] = L.map kobj.entry ++ [kobj.map]
    rw [hkf, List.nil_append]

/-- C5, on the map with bounds `[0x1000, 0x9000)` and the three calls for
`[0x2000, 0x4000)`, `[0x1000, 0x2000)` and `[0x5000, 0x6000)`, each entry
carrying the object at its own address plus `100`. -/
theorem vm_map_delete_spec_witness :
    ∃ s es L, vm_map_add_entries (vm_map_new 0x1000 0x9000)
        [(0x2000, 0x4000, 3), (0x1000, 0x2000, 1), (0x5000, 0x6000, 2)] = some (s, es) ∧
      vm_map_list s L ∧ L.Perm es ∧
      es.length = [(0x2000, 0x4000, 3), (0x1000, 0x2000, 1), (0x5000, 0x6000, 2)].length ∧
      ∀ fuel, [(0x2000, 0x4000, 3), (0x1000, 0x2000, 1), (0x5000, 0x6000, 2)].length ≤ fuel →
        ∃ s1, vm_map_delete { s with object := fun e => some (e + 100) } fuel = some s1 ∧
          s1.list.tqh_first = none ∧ s1.nentries = 0 ∧
          s1.object_free_log = L.map (fun e => some (e + 100)) ∧
          s1.kfree_log = L.map kobj.entry ++ [kobj.map] :=
  vm_map_delete_spec 0x1000 0x9000
    [(0x2000, 0x4000, 3), (0x1000, 0x2000, 1), (0x5000, 0x6000, 2)] (fun e => some (e + 100))
    (by decide) (by decide) (by decide)

/-! ## Inputs on which the code departs from the specification -/

/-- C4: `vm_map_add_entry` has no assertion on `start < end`.  On a new map with
bounds `[0x1000, 0x9000)` the call for the empty range `[0x2000, 0x2000)` and
the call for the inverted range `[0x3000, 0x2000)` both return an entry, which
is in the tree and in the list, and `nentries` is `1`. -/
theorem vm_map_add_entry_empty_range :
    (vm_map_add_entry (vm_map_new 0x1000 0x9000) 0x2000 0x2000 3).map
        (fun p => (p.2, p.1.nentries, p.1.list.tqh_first, p.1.tree, p.1.start 0, p.1.end_ 0))
      = some (0, 1, some 0, .node .leaf 0 .leaf, 0x2000, 0x2000) ∧
    (vm_map_add_entry (vm_map_new 0x1000 0x9000) 0x3000 0x2000 3).map
        (fun p => (p.2, p.1.nentries, p.1.list.tqh_first, p.1.tree, p.1.start 0, p.1.end_ 0))
      = some (0, 1, some 0, .node .leaf 0 .leaf, 0x3000, 0x2000) := by
  constructor <;> decide!

/-- The mask `-PAGESIZE` clears the twelve low bits of a 32 bit address: the
address is rounded down to a page boundary. -/
theorem vm_fault_page_eq (f : Nat) (hf : f < VM_ADDR_MOD) :
    f &&& (VM_ADDR_MOD - PAGESIZE) = f / PAGESIZE * PAGESIZE := by
  unfold VM_ADDR_MOD at hf
  have hm : VM_ADDR_MOD - PAGESIZE = 2 ^ 32 - ((2 ^ 12 - 1) + 1) := by
    unfold VM_ADDR_MOD PAGESIZE
    norm_num
  have hp : f / PAGESIZE * PAGESIZE = 2 ^ 12 * (f >>> 12) := by
    unfold PAGESIZE
    rw [Nat.shiftRight_eq_div_pow, Nat.mul_comm]
    norm_num
  rw [hm, hp]
  apply Nat.eq_of_testBit_eq
  intro i
  rw [Nat.testBit_and, Nat.testBit_two_pow_sub_succ (by norm_num), Nat.testBit_two_pow_sub_one,
    Nat.testBit_mul_pow_two, Nat.testBit_shiftRight]
  by_cases h12 : i < 12
  · have : ¬ (i ≥ 12) := by omega
    simp [h12, this]
  · have h12' : i ≥ 12 := by omega
    have hi : 12 + (i - 12) = i := by omega
    by_cases h32 : i < 32
    · simp [h12, h12', h32, hi]
    · have : f.testBit i = false := by
        apply Nat.testBit_lt_two_pow
        calc f < 2 ^ 32 := hf
          _ ≤ 2 ^ i := Nat.pow_le_pow_right (by norm_num) (by omega)
      simp [h12, h12', h32, hi, this]

/-! ## The fault handler: page resolution -/

theorem vm_map_list_set_object (s : kstate) (e obj : Nat) (L : List Nat) :
    vm_map_list (vm_map_entry_set_object s e obj) L ↔ vm_map_list s L := Iff.rfl

theorem vm_map_entry_covers_set_object (s : kstate) (e obj a x : Nat) :
    vm_map_entry_covers (vm_map_entry_set_object s e obj) a x ↔ vm_map_entry_covers s a x :=
  Iff.rfl

/-- A fault that passes lookup and protection tests on an entry without object
stops at the assertion `obj != NULL`, after the call to `log` only. -/
theorem vm_page_fault_no_object (c : vm_pager) (s : kstate) (L : List Nat)
    (f type fuel e : Nat) (hL : vm_map_list s L) (hfuel : L.length ≤ fuel)
    (he : L.find? (fun x => decide (vm_map_entry_covers s f x)) = some e)
    (hperm : vm_prot_permits (s.prot e) type) (hobj : s.object e = none) :
    vm_page_fault c s f type fuel = some ⟨[.log], some .assert_object⟩ := by
  have hcov : vm_map_entry_covers s f e := by simpa using List.find?_some he
  unfold vm_map_entry_covers at hcov
  obtain ⟨h0, hw, hr⟩ := hperm
  unfold vm_page_fault
  rw [vm_map_find_entry_list s L f fuel hL hfuel, he]
  simp only [if_neg h0, if_neg hw, if_neg hr, hcov, and_self, not_true_eq_false, if_false, hobj]

/-- A fault that passes lookup and protection tests on an entry with an object:
the calls made and the way the run ends. -/
theorem vm_page_fault_resolved (c : vm_pager) (s : kstate) (L : List Nat)
    (f type fuel e obj : Nat) (hL : vm_map_list s L) (hfuel : L.length ≤ fuel)
    (he : L.find? (fun x => decide (vm_map_entry_covers s f x)) = some e)
    (hperm : vm_prot_permits (s.prot e) type) (hobj : s.object e = some obj) :
    vm_page_fault c s f type fuel =
      match c.vm_object_find_page obj (vm_fault_offset s f e) with
      | some frame =>
        some ⟨[.log, .vm_object_find_page obj (vm_fault_offset s f e),
          .pmap_map f ((f + PAGESIZE) % VM_ADDR_MOD) (c.paddr frame) (s.prot e)], none⟩
      | none =>
        match c.pgr_fault obj (vm_fault_page f) (vm_fault_offset s f e) type with
        | some frame =>
          some ⟨[.log, .vm_object_find_page obj (vm_fault_offset s f e),
            .pgr_fault obj (vm_fault_page f) (vm_fault_offset s f e) type,
            .pmap_map f ((f + PAGESIZE) % VM_ADDR_MOD) (c.paddr frame) (s.prot e)], none⟩
        | none =>
          some ⟨[.log, .vm_object_find_page obj (vm_fault_offset s f e),
            .pgr_fault obj (vm_fault_page f) (vm_fault_offset s f e) type],
            some .null_frame⟩ := by
  have hcov : vm_map_entry_covers s f e := by simpa using List.find?_some he
  unfold vm_map_entry_covers at hcov
  obtain ⟨h0, hw, hr⟩ := hperm
  unfold vm_page_fault vm_fault_offset vm_fault_page
  rw [vm_map_find_entry_list s L f fuel hL hfuel, he]
  simp only [if_neg h0, if_neg hw, if_neg hr, hcov, and_self, not_true_eq_false, if_false, hobj]
  cases h1 : c.vm_object_find_page obj
      (((f &&& (VM_ADDR_MOD - PAGESIZE)) + VM_ADDR_MOD - s.start e) % VM_ADDR_MOD) with
  | some frame => simp
  | none =>
    cases h2 : c.pgr_fault obj (f &&& (VM_ADDR_MOD - PAGESIZE))
        (((f &&& (VM_ADDR_MOD - PAGESIZE)) + VM_ADDR_MOD - s.start e) % VM_ADDR_MOD) type with
    | some frame => simp
    | none => simp

/-- The offset of a fault in an entry with page-aligned start: the machine
subtraction does not wrap, the offset is page-aligned and lies in the entry. -/
theorem vm_fault_offset_eq (s : kstate) (f e : Nat) (hf : f < VM_ADDR_MOD)
    (hcov : vm_map_entry_covers s f e) (halign : is_aligned (s.start e) PAGESIZE = true) :
    vm_fault_page f = f / PAGESIZE * PAGESIZE ∧
    s.start e ≤ f / PAGESIZE * PAGESIZE ∧
    vm_fault_offset s f e = f / PAGESIZE * PAGESIZE - s.start e ∧
    (f / PAGESIZE * PAGESIZE - s.start e) % PAGESIZE = 0 ∧
    f / PAGESIZE * PAGESIZE - s.start e < s.end_ e - s.start e := by
  unfold vm_fault_offset vm_fault_page
  rw [vm_fault_page_eq f hf]
  unfold vm_map_entry_covers at hcov
  unfold is_aligned at halign
  unfold VM_ADDR_MOD at hf ⊢
  unfold PAGESIZE at halign ⊢
  simp only [beq_iff_eq] at halign
  omega

/-- C17: for a fault address `f` covered by an entry with page-aligned start,
when the fault passes the protection tests and the entry has an object, the
offset `vm_page_fault` hands to `vm_object_find_page` (second call of the run)
is `P - entry.start` for `P` the address `f` rounded down to a page boundary;
`entry.start <= P`, so the subtraction does not wrap; the offset is
page-aligned and less than `entry.end - entry.start`.  The pager is called
exactly when `vm_object_find_page` returns no frame, and every call to it has
the arguments `(object, P, offset, fault_type)`. -/
theorem vm_page_fault_offset (c : vm_pager) (s : kstate) (L : List Nat)
    (f type fuel e obj : Nat) (hL : vm_map_list s L) (hfuel : L.length ≤ fuel)
    (he : L.find? (fun x => decide (vm_map_entry_covers s f x)) = some e)
    (halign : is_aligned (s.start e) PAGESIZE = true) (hf : f < VM_ADDR_MOD)
    (hperm : vm_prot_permits (s.prot e) type) (hobj : s.object e = some obj) :
    ∃ run, vm_page_fault c s f type fuel = some run ∧
      s.start e ≤ f / PAGESIZE * PAGESIZE ∧
      (f / PAGESIZE * PAGESIZE - s.start e) % PAGESIZE = 0 ∧
      f / PAGESIZE * PAGESIZE - s.start e < s.end_ e - s.start e ∧
      run.calls.take 2 =
        [.log, .vm_object_find_page obj (f / PAGESIZE * PAGESIZE - s.start e)] ∧
      (vm_call.pgr_fault obj (f / PAGESIZE * PAGESIZE)
          (f / PAGESIZE * PAGESIZE - s.start e) type ∈ run.calls ↔
        c.vm_object_find_page obj (f / PAGESIZE * PAGESIZE - s.start e) = none) ∧
      (∀ o p x t, vm_call.pgr_fault o p x t ∈ run.calls →
        o = obj ∧ p = f / PAGESIZE * PAGESIZE ∧ x = f / PAGESIZE * PAGESIZE - s.start e ∧
          t = type) ∧
      (∀ o x, vm_call.vm_object_find_page o x ∈ run.calls →
        o = obj ∧ x = f / PAGESIZE * PAGESIZE - s.start e) := by
  have hcov : vm_map_entry_covers s f e := by simpa using List.find?_some he
  obtain ⟨hP, h1, hoff, h2, h3⟩ := vm_fault_offset_eq s f e hf hcov halign
  have hrun := vm_page_fault_resolved c s L f type fuel e obj hL hfuel he hperm hobj
  rw [hP, hoff] at hrun
  cases hfind : c.vm_object_find_page obj (f / PAGESIZE * PAGESIZE - s.start e) with
  | some frame =>
    rw [hfind] at hrun
    refine ⟨_, hrun, h1, h2, h3, rfl, ?_, ?_, ?_⟩
    · simp
    · intro o p x t h
      simp at h
    · intro o x h
      simpa using h
  | none =>
    rw [hfind] at hrun
    cases hpg : c.pgr_fault obj (f / PAGESIZE * PAGESIZE)
        (f / PAGESIZE * PAGESIZE - s.start e) type with
    | some frame =>
      rw [hpg] at hrun
      refine ⟨_, hrun, h1, h2, h3, rfl, ?_, ?_, ?_⟩
      · simp
      · intro o p x t h
        simpa using h
      · intro o x h
        simpa using h
    | none =>
      rw [hpg] at hrun
      refine ⟨_, hrun, h1, h2, h3, rfl, ?_, ?_, ?_⟩
      · simp
      · intro o p x t h
        simpa using h
      · intro o x h
        simpa using h

/-- C17, on the scenario of the specification with object `7` attached: write
fault at `0x2050` in the entry `[0x2000, 0x4000)`. -/
theorem vm_page_fault_offset_witness :
    ∃ run, vm_page_fault vm_pager_scenario (vm_fault_scenario 7) 0x2050 VM_PROT_WRITE 1
        = some run ∧
      (vm_fault_scenario 7).start 0 ≤ 0x2050 / PAGESIZE * PAGESIZE ∧
      (0x2050 / PAGESIZE * PAGESIZE - (vm_fault_scenario 7).start 0) % PAGESIZE = 0 ∧
      0x2050 / PAGESIZE * PAGESIZE - (vm_fault_scenario 7).start 0
        < (vm_fault_scenario 7).end_ 0 - (vm_fault_scenario 7).start 0 ∧
      run.calls.take 2 =
        [.log, .vm_object_find_page 7
          (0x2050 / PAGESIZE * PAGESIZE - (vm_fault_scenario 7).start 0)] ∧
      (vm_call.pgr_fault 7 (0x2050 / PAGESIZE * PAGESIZE)
          (0x2050 / PAGESIZE * PAGESIZE - (vm_fault_scenario 7).start 0) VM_PROT_WRITE
            ∈ run.calls ↔
        vm_pager_scenario.vm_object_find_page 7
          (0x2050 / PAGESIZE * PAGESIZE - (vm_fault_scenario 7).start 0) = none) ∧
      (∀ o p x t, vm_call.pgr_fault o p x t ∈ run.calls →
        o = 7 ∧ p = 0x2050 / PAGESIZE * PAGESIZE ∧
          x = 0x2050 / PAGESIZE * PAGESIZE - (vm_fault_scenario 7).start 0 ∧
          t = VM_PROT_WRITE) ∧
      (∀ o x, vm_call.vm_object_find_page o x ∈ run.calls →
        o = 7 ∧ x = 0x2050 / PAGESIZE * PAGESIZE - (vm_fault_scenario 7).start 0) :=
  vm_page_fault_offset vm_pager_scenario (vm_fault_scenario 7) [0] 0x2050 VM_PROT_WRITE 1 0 7
    ⟨by decide, by decide!⟩ (by decide) (by decide!) (by decide!) (by decide) (by decide!)
    (by decide!)

/-- C11: `vm_page_fault` hands `fault_addr`, not `fault_page`, to `pmap_map`.  On
the scenario of the specification with object `7` attached, the write fault at
`0x2050` ends in `pmap_map(pmap, 0x2050, 0x3050, paddr, prot)`: the range
mapped starts at the fault address and runs over the page boundary `0x3000`,
while the pager was asked for the page `0x2000`. -/
theorem vm_page_fault_pmap_map_range :
    vm_page_fault vm_pager_scenario (vm_fault_scenario 7) 0x2050 VM_PROT_WRITE 1 =
      some ⟨[.log, .vm_object_find_page 7 0, .pgr_fault 7 0x2000 0 VM_PROT_WRITE,
        .pmap_map 0x2050 0x3050 0 3], none⟩ := by
  decide!

/-- C12, the claim as stated fails: on the scenario of the specification with
object `7` attached, neither `vm_object_find_page` nor the pager is called
with offset `0x50` by the fault at `0x2050`, nor with offset `0x800` by the
fault at `0x2800`. -/
theorem vm_fault_scenario_offsets_counterexample :
    ∃ r1 r2,
      vm_page_fault vm_pager_scenario (vm_fault_scenario 7) 0x2050 VM_PROT_WRITE 1 = some r1 ∧
      vm_page_fault vm_pager_scenario (vm_fault_scenario 7) 0x2800 VM_PROT_WRITE 1 = some r2 ∧
      vm_call.vm_object_find_page 7 0x50 ∉ r1.calls ∧
      (∀ p, vm_call.pgr_fault 7 p 0x50 VM_PROT_WRITE ∉ r1.calls) ∧
      vm_call.vm_object_find_page 7 0x800 ∉ r2.calls ∧
      (∀ p, vm_call.pgr_fault 7 p 0x800 VM_PROT_WRITE ∉ r2.calls) := by
  refine ⟨⟨[.log, .vm_object_find_page 7 0, .pgr_fault 7 0x2000 0 VM_PROT_WRITE,
        .pmap_map 0x2050 0x3050 0 3], none⟩,
      ⟨[.log, .vm_object_find_page 7 0, .pgr_fault 7 0x2000 0 VM_PROT_WRITE,
        .pmap_map 0x2800 0x3800 0 3], none⟩, by decide!, by decide!, by decide, ?_, by decide, ?_⟩
  · intro p h
    simp at h
  · intro p h
    simp at h

theorem vm_fault_scenario_facts (obj : Nat) :
    vm_map_list (vm_fault_scenario obj) [0] ∧ (vm_fault_scenario obj).start 0 = 0x2000 ∧
      (vm_fault_scenario obj).end_ 0 = 0x4000 ∧ (vm_fault_scenario obj).prot 0 = 3 ∧
      (vm_fault_scenario obj).object 0 = some obj := by
  refine ⟨?_, ?_, ?_, ?_, ?_⟩
  · unfold vm_fault_scenario
    rw [vm_map_list_set_object]
    exact ⟨by decide, by decide!⟩
  · show (vm_map_scenario 0x1000 0x9000 [(0x2000, 0x4000, 3)]).start 0 = 0x2000
    decide!
  · show (vm_map_scenario 0x1000 0x9000 [(0x2000, 0x4000, 3)]).end_ 0 = 0x4000
    decide!
  · show (vm_map_scenario 0x1000 0x9000 [(0x2000, 0x4000, 3)]).prot 0 = 3
    decide!
  · show upd (vm_map_scenario 0x1000 0x9000 [(0x2000, 0x4000, 3)]).object 0 (some obj) 0
      = some obj
    exact upd_same _ _ _

/-- A write fault in the first page of the entry of the scenario: the calls
before `pmap_map`. -/
theorem vm_fault_scenario_run (c : vm_pager) (obj f : Nat) (h1 : 0x2000 ≤ f) (h2 : f < 0x3000) :
    ∃ r, vm_page_fault c (vm_fault_scenario obj) f VM_PROT_WRITE 1 = some r ∧
      r.calls.take 2 = [.log, .vm_object_find_page obj 0] ∧
      (c.vm_object_find_page obj 0 = none →
        r.calls.take 3 = [.log, .vm_object_find_page obj 0,
          .pgr_fault obj 0x2000 0 VM_PROT_WRITE]) ∧
      (∀ frame, c.vm_object_find_page obj 0 = some frame →
        ∀ o p x t, vm_call.pgr_fault o p x t ∉ r.calls) := by
  obtain ⟨hL, hs, he, hp, ho⟩ := vm_fault_scenario_facts obj
  have hcov : vm_map_entry_covers (vm_fault_scenario obj) f 0 := by
    unfold vm_map_entry_covers
    rw [hs, he]
    omega
  have hfind : [0].find? (fun x => decide (vm_map_entry_covers (vm_fault_scenario obj) f x))
      = some 0 := by
    simp [List.find?, hcov]
  have hperm : vm_prot_permits ((vm_fault_scenario obj).prot 0) VM_PROT_WRITE := by
    rw [hp]
    decide
  have hf : f < VM_ADDR_MOD := by
    unfold VM_ADDR_MOD
    omega
  have halign : is_aligned ((vm_fault_scenario obj).start 0) PAGESIZE = true := by
    rw [hs]
    decide
  obtain ⟨hP, _, hoff, _, _⟩ := vm_fault_offset_eq (vm_fault_scenario obj) f 0 hf hcov halign
  have hP2 : f / PAGESIZE * PAGESIZE = 0x2000 := by
    unfold PAGESIZE
    omega
  rw [hP2] at hP
  rw [hP2, hs] at hoff
  have hrun := vm_page_fault_resolved c (vm_fault_scenario obj) [0] f VM_PROT_WRITE 1 0 obj hL
    (by decide) hfind hperm ho
  rw [hP, hoff] at hrun
  simp only [Nat.sub_self] at hrun
  cases hres : c.vm_object_find_page obj 0 with
  | some frame =>
    rw [hres] at hrun
    refine ⟨_, hrun, rfl, by simp, ?_⟩
    intro _ _ o p x t h
    simp at h
  | none =>
    rw [hres] at hrun
    cases hpg : c.pgr_fault obj 0x2000 0 VM_PROT_WRITE with
    | some frame =>
      rw [hpg] at hrun
      exact ⟨_, hrun, rfl, fun _ => rfl, by simp⟩
    | none =>
      rw [hpg] at hrun
      exact ⟨_, hrun, rfl, fun _ => rfl, by simp⟩

/-- C12 as amended: on the scenario of the specification (bounds
`[0x1000, 0x9000)`, entry `[0x2000, 0x4000)` with `READ|WRITE`, an object
attached), for every pager and object, the write fault at `0x2050` and the
write fault at `0x2800` both resolve offset `0`: `vm_object_find_page` is
called with the object and offset `0`, and when no frame is resident the pager
is called with the object, the page `0x2000`, offset `0` and the access type;
when a frame is resident the pager is not called. -/
theorem vm_page_fault_scenario_offsets (c : vm_pager) (obj : Nat) :
    ∃ r1 r2,
      vm_page_fault c (vm_fault_scenario obj) 0x2050 VM_PROT_WRITE 1 = some r1 ∧
      vm_page_fault c (vm_fault_scenario obj) 0x2800 VM_PROT_WRITE 1 = some r2 ∧
      r1.calls.take 2 = [.log, .vm_object_find_page obj 0] ∧
      r2.calls.take 2 = [.log, .vm_object_find_page obj 0] ∧
      (c.vm_object_find_page obj 0 = none →
        r1.calls.take 3 = [.log, .vm_object_find_page obj 0,
          .pgr_fault obj 0x2000 0 VM_PROT_WRITE] ∧
        r2.calls.take 3 = [.log, .vm_object_find_page obj 0,
          .pgr_fault obj 0x2000 0 VM_PROT_WRITE]) ∧
      (∀ frame, c.vm_object_find_page obj 0 = some frame →
        ∀ o p x t, vm_call.pgr_fault o p x t ∉ r1.calls ∧ vm_call.pgr_fault o p x t ∉ r2.calls) := by
  obtain ⟨r1, h1, a1, b1, c1⟩ := vm_fault_scenario_run c obj 0x2050 (by norm_num) (by norm_num)
  obtain ⟨r2, h2, a2, b2, c2⟩ := vm_fault_scenario_run c obj 0x2800 (by norm_num) (by norm_num)
  exact ⟨r1, r2, h1, h2, a1, a2, fun h => ⟨b1 h, b2 h⟩,
    fun frame h o p x t => ⟨c1 frame h o p x t, c2 frame h o p x t⟩⟩

/-! ## The object of an entry -/

/-- C13, the claim as stated fails: the entry that `vm_map_add_entry` returns
for `[0x2000, 0x4000)` with `READ|WRITE` on a new map with bounds
`[0x1000, 0x9000)` has `object == NULL`, and the write fault at `0x2050` stops
at the assertion `obj != NULL`. -/
theorem vm_map_add_entry_object_counterexample :
    (vm_map_add_entry (vm_map_new 0x1000 0x9000) 0x2000 0x4000 3).map
        (fun p => (p.1.object p.2, vm_page_fault vm_pager_scenario p.1 0x2050 VM_PROT_WRITE 1))
      = some (none, some ⟨[.log], some .assert_object⟩) := by
  decide!

/-- C13 as amended: every entry returned by `vm_map_add_entry` (on a new map,
ranges non-empty, page-aligned, inside the bounds, pairwise without overlap)
has no object (`entry->object == NULL`); a fault inside its range whose access
its protection permits stops at the assertion `obj != NULL` before any page
resolution; once the caller has assigned an object to the entry, the same
fault passes the assertion and reaches page resolution (the call to
`vm_object_find_page` on that object). -/
theorem vm_map_add_entry_no_object (lo hi : Nat) (rs : List (Nat × Nat × Nat))
    (hhi : hi < VM_ADDR_MOD) (hok : ∀ r ∈ rs, vm_range_ok lo hi r)
    (hdis : rs.Pairwise vm_range_disjoint) :
    ∃ s es, vm_map_add_entries (vm_map_new lo hi) rs = some (s, es) ∧
      es.length = rs.length ∧
      ∀ e ∈ es, s.object e = none ∧
        ∀ (c : vm_pager) (f type fuel : Nat), vm_map_entry_covers s f e → rs.length ≤ fuel →
          vm_prot_permits (s.prot e) type →
          vm_page_fault c s f type fuel = some ⟨[.log], some .assert_object⟩ ∧
          ∀ obj, ∃ run off,
            vm_page_fault c (vm_map_entry_set_object s e obj) f type fuel = some run ∧
            run.calls.take 2 = [.log, .vm_object_find_page obj off] ∧
            run.halt ≠ some .assert_object := by
  obtain ⟨s, es, L, hadd, hinv, hperm, hmap, hd, hobj, _, _, _, _⟩ :=
    vm_map_add_entries_new lo hi rs hhi hok hdis
  have hlen : es.length = rs.length := by rw [← hmap, List.length_map]
  have hlenL : L.length = rs.length := by rw [hperm.length_eq, hlen]
  refine ⟨s, es, hadd, hlen, ?_⟩
  intro e he
  refine ⟨hobj e he, ?_⟩
  intro c f type fuel hcov hfuel hp
  have hfind := find_covers_of_disjoint s L f e hd (hperm.mem_iff.2 he) hcov
  refine ⟨vm_page_fault_no_object c s L f type fuel e hinv.1 (by omega) hfind hp (hobj e he), ?_⟩
  intro obj
  have hrun := vm_page_fault_resolved c (vm_map_entry_set_object s e obj) L f type fuel e obj
    ((vm_map_list_set_object s e obj L).2 hinv.1) (by omega) hfind hp (upd_same _ _ _)
  cases h1 : c.vm_object_find_page obj (vm_fault_offset (vm_map_entry_set_object s e obj) f e) with
  | some frame =>
    rw [h1] at hrun
    exact ⟨_, _, hrun, rfl, by simp⟩
  | none =>
    rw [h1] at hrun
    cases h2 : c.pgr_fault obj (vm_fault_page f)
        (vm_fault_offset (vm_map_entry_set_object s e obj) f e) type with
    | some frame =>
      rw [h2] at hrun
      exact ⟨_, _, hrun, rfl, by simp⟩
    | none =>
      rw [h2] at hrun
      exact ⟨_, _, hrun, rfl, by simp⟩

/-- C13 as amended, on the map with bounds `[0x1000, 0x9000)` and the calls for
`[0x2000, 0x4000)` and `[0x1000, 0x2000)`. -/
theorem vm_map_add_entry_no_object_witness :
    ∃ s es, vm_map_add_entries (vm_map_new 0x1000 0x9000)
        [(0x2000, 0x4000, 3), (0x1000, 0x2000, 1)] = some (s, es) ∧
      es.length = [(0x2000, 0x4000, 3), (0x1000, 0x2000, 1)].length ∧
      ∀ e ∈ es, s.object e = none ∧
        ∀ (c : vm_pager) (f type fuel : Nat), vm_map_entry_covers s f e →
          [(0x2000, 0x4000, 3), (0x1000, 0x2000, 1)].length ≤ fuel →
          vm_prot_permits (s.prot e) type →
          vm_page_fault c s f type fuel = some ⟨[.log], some .assert_object⟩ ∧
          ∀ obj, ∃ run off,
            vm_page_fault c (vm_map_entry_set_object s e obj) f type fuel = some run ∧
            run.calls.take 2 = [.log, .vm_object_find_page obj off] ∧
            run.halt ≠ some .assert_object :=
  vm_map_add_entry_no_object 0x1000 0x9000 [(0x2000, 0x4000, 3), (0x1000, 0x2000, 1)]
    (by decide) (by decide) (by decide)

/-! ## Further inputs on which the code departs from the specification -/

/-- C14: `vm_map_remove_entry` unlinks the entry from the list only.  On a new
map with bounds `[0x1000, 0x9000)`, after adding `[0x1000, 0x2000)` and
removing the entry returned, the list is empty while the tree still holds the
entry (`0`). -/
theorem vm_map_remove_entry_keeps_tree :
    (vm_map_run (vm_map_new 0x1000 0x9000) [.add 0x1000 0x2000 3, .remove 0]).map
        (fun s => (s.tree.toList, vm_map_list_entries s 4, s.nentries))
      = some ([0], some [], 0) := by
  decide!

/-- C15: on a new map with bounds `[0, 0xfffff000)`, after adding `[0, 0x1000)`
and then `[0x80000000, 0x80001000)`, the list holds the second entry first:
the starts along the list are `0x80000000`, `0`, not ascending.  The comparison
of the new entry with the first one returned a negative `int`. -/
theorem vm_map_list_not_ascending :
    (vm_map_run (vm_map_new 0 0xfffff000) [.add 0 0x1000 3, .add 0x80000000 0x80001000 3]).map
        (fun s => ((vm_map_list_entries s 4).map (fun l => l.map s.start), s.nentries))
      = some (some [0x80000000, 0], 2) := by
  decide!

/-- With the allocator of this model (every `kmalloc` hands out a block never
used before, and a block passed to `kfree` keeps its contents): on a new map
with bounds `[0x1000, 0x9000)`, add `[0x1000, 0x2000)`, `[0x3000, 0x4000)`,
`[0x5000, 0x6000)`, remove the second entry (`1`), add `[0x2000, 0x3000)`.
`SPLAY_NEXT` yields the removed entry, which is still in the tree, and
`TAILQ_INSERT_BEFORE` links the new entry (`3`) through the pointers of the
removed one: `nentries` is `3`, the list reaches four entries, the removed
one among them.  The run reads the block of the removed entry after its
`kfree`, so what it gives rests on the allocator. -/
theorem vm_map_add_entry_stale_successor :
    (vm_map_run (vm_map_new 0x1000 0x9000)
        [.add 0x1000 0x2000 3, .add 0x3000 0x4000 3, .add 0x5000 0x6000 3, .remove 1,
          .add 0x2000 0x3000 3]).map
        (fun s => (s.nentries, vm_map_list_entries s 8, s.kfree_log))
      = some (3, some [0, 3, 1, 2], [kobj.entry 1]) := by
  decide!

/-- C18: for an entry `a` with start `0x80000000` and an entry `b` with start
`0` (the two entries of a map with bounds `[0, 0xfffff000)`),
`vm_map_entry_cmp(a, b)` is `-2147483648` although `a.start > b.start`, and
`vm_map_entry_cmp(b, a)` is `-1`: both results are negative. -/
theorem vm_map_entry_cmp_wraps :
    (vm_map_run (vm_map_new 0 0xfffff000) [.add 0x80000000 0x80001000 3, .add 0 0x1000 3]).map
        (fun s => (s.start 0, s.start 1, vm_map_entry_cmp s 0 1, vm_map_entry_cmp s 1 0))
      = some (0x80000000, 0, -2147483648, -1) := by
  decide!

/-- C19: the loop of `plic_attach` runs over `irq = 0 .. ndev - 1`.  For a device
with `3` sources and all registers zero beforehand, `plic_attach` returns `0`
and leaves the priority registers of the sources `0`, `1`, `2` at `1`, but the
one of source `3` (the last source that `rman_manage_region` and
`plic_map_intr` take) at `0`; the threshold register is `0`. -/
theorem plic_attach_priority_last_source :
    (plic_attach ⟨some 3, true, true, true⟩ ⟨0, [], fun _ => 0⟩).map
        (fun r => (r.1, r.2.ndev, (List.range 5).map (fun i => r.2.regs (PLIC_PRIORITY i)),
          r.2.regs PLIC_THRESHOLD_SV))
      = some (0, 3, [1, 1, 1, 0, 0], 0) := by
  decide!

/-- C20: for a device with `3` sources, `plic_map_intr` takes the interrupt
number `3` (one cell, value `3`) and returns it, but `plic_setup_intr` for a
resource that starts at `3` stops at its assertion `irq && irq < plic->ndev`,
and the array `intr_event` of `3` elements has no element `3`. -/
theorem plic_map_intr_accepts_ndev :
    (plic_scenario 3).ndev = 3 ∧ (plic_scenario 3).intr_event.length = 3 ∧
    plic_map_intr (plic_scenario 3) 3 1 = 3 ∧
    plic_setup_intr (plic_scenario 3) 3 9 = none ∧
    (plic_scenario 3).intr_event[3]? = none ∧
    (plic_setup_intr (plic_scenario 3) 2 9).map (fun p => p.intr_event)
      = some [none, none, some 9] := by
  refine ⟨by decide!, by decide!, by decide!, Option.isNone_iff_eq_none.1 (by decide!),
    by decide!, by decide!⟩

end Mimiker
